import Mathlib

set_option maxHeartbeats 1000000
set_option maxRecDepth 20000

/-!
Shallow embedding of the otlbook toolkit (src/otltool.py and src/otlbook.py).
Lines of the outline document are modelled as lists of characters; Python
string helpers are modelled character by character.  All claims below refer
to the otltool.py variants of the shared functions unless otherwise noted
(src/otlbook.py only contributes the `write_tags` merge).
-/

/-- A line of text, as a list of characters. -/
abbrev Line := List Char

/-- Python ASCII whitespace, the characters relevant to `str.strip()`,
`str.split()` and `\s` here (the further Unicode space code points Python
also treats as whitespace never occur in the inputs the claims concern). -/
def pyIsSpace (c : Char) : Bool :=
  c == ' ' || c == '\t' || c == '\n' || c == '\r' || c == '\x0b' || c == '\x0c'

/-- `str.rstrip()` with no arguments. -/
def pyRstrip (l : Line) : Line := (l.reverse.dropWhile pyIsSpace).reverse

/-- `str.lstrip()` with no arguments. -/
def pyLstrip (l : Line) : Line := l.dropWhile pyIsSpace

/-- `str.strip()` with no arguments. -/
def pyStrip (l : Line) : Line := pyLstrip (pyRstrip l)

/-- The character set of `line.rstrip(' \n\t')` in `split_user_blocks`. -/
def isSpaceNlTab (c : Char) : Bool := c == ' ' || c == '\n' || c == '\t'

/-- `line.rstrip(' \n\t')` from `split_user_blocks` / `join_user_blocks`. -/
def rstripSnt (l : Line) : Line := (l.reverse.dropWhile isSpaceNlTab).reverse

/-- `line_depth` from `split_user_blocks`: count of leading tab characters
(with an emptiness guard, so total on every line). -/
def line_depth : Line → Nat
  | [] => 0
  | c :: rest => if c = '\t' then line_depth rest + 1 else 0

/-- `re.sub(r'^\t*', '', line)`: the line with leading tabs removed. -/
def dropTabs : Line → Line
  | [] => []
  | c :: rest => if c = '\t' then dropTabs rest else c :: rest

/-- A segment produced by `split_user_blocks`: either a run of plain lines
(a Python `list`) or a user block (a `SimpleNamespace(name, depth, text)`). -/
inductive Segment : Type where
  | plain (lines : List Line) : Segment
  | block (name : Line) (depth : Nat) (text : List Line) : Segment
deriving DecidableEq

/-- One iteration of the `for line in input` loop of `split_user_blocks`
(src/otltool.py, block marker `;`).  The accumulator keeps the segments in
reverse order, so that its head is Python's `ret[-1]`; the initial dummy
`None` of the Python code corresponds to the empty accumulator. -/
def splitStep (acc : List Segment) (rawLine : Line) : List Segment :=
  let line := rstripSnt rawLine
  let depth := line_depth line
  let line_text := dropTabs line
  if line_text.take 2 = [';', ' '] ∨ line_text = [';'] then
    match acc with
    | Segment.block name d text :: rest =>
      if d = depth then Segment.block name d (text ++ [line_text.drop 2]) :: rest
      else Segment.block [] depth [line_text.drop 2] :: acc
    | _ => Segment.block [] depth [line_text.drop 2] :: acc
  else if line_text.head? = some ';' then
    Segment.block (line_text.drop 1) depth [] :: acc
  else
    match acc with
    | Segment.plain ls :: rest => Segment.plain (ls ++ [line]) :: rest
    | _ => Segment.plain [line] :: acc

/-- `split_user_blocks` from src/otltool.py. -/
def split_user_blocks (input : List Line) : List Segment :=
  (input.foldl splitStep []).reverse

/-- The lines one segment contributes to the output of `join_user_blocks`:
plain runs verbatim, a block header `'\t'*depth + ';' + name` only when the
name is non-empty, then `('\t'*depth + '; ' + line).rstrip(' \n\t')` per
body line. -/
def segmentLines : Segment → List Line
  | Segment.plain ls => ls
  | Segment.block name depth text =>
    (if name = [] then [] else [List.replicate depth '\t' ++ ';' :: name]) ++
    text.map (fun l => rstripSnt (List.replicate depth '\t' ++ ';' :: ' ' :: l))

/-- `join_user_blocks` from src/otltool.py: `'\n'.join` of the emitted lines. -/
def join_user_blocks (seq : List Segment) : Line :=
  List.intercalate ['\n'] (List.flatten (seq.map segmentLines))

/-! ## The outline parser (`OtlNode.__init__`, src/otltool.py) -/

/-- The local `depth` helper of `OtlNode.__init__`: counts leading tabs and
returns the remainder with `str.rstrip()` applied.  `none` models the
`IndexError` that `line[0]` raises once the line has run out of characters,
i.e. on a line that is empty or consists solely of tabs. -/
def otlDepth : Line → Option (Nat × Line)
  | [] => none
  | c :: rest =>
    if c = '\t' then (otlDepth rest).map (fun p => (p.1 + 1, p.2))
    else some (0, pyRstrip (c :: rest))

/-- `[A-Z]`. -/
def isUpperAZ (c : Char) : Bool := decide ('A' ≤ c) && decide (c ≤ 'Z')

/-- `[a-z0-9]`. -/
def isLowerDigit (c : Char) : Bool :=
  (decide ('a' ≤ c) && decide (c ≤ 'z')) || (decide ('0' ≤ c) && decide (c ≤ '9'))

/-- State machine for `([A-Z][a-z0-9]+){2,}` anchored at both ends: counts
the segments of the unique decomposition (an upper-case letter can only
start a segment and a `[a-z0-9]` character can only continue one, so greedy
scanning coincides with the regex).  `needLD` records that the previous
character was the segment-starting capital, which still needs at least one
`[a-z0-9]` tail character. -/
def wikiAux : Line → Nat → Bool → Option Nat
  | [], n, needLD => if needLD then none else some n
  | c :: rest, n, needLD =>
    if isUpperAZ c then (if needLD then none else wikiAux rest (n + 1) true)
    else if isLowerDigit c then wikiAux rest n false
    else none

/-- `re.match(r'^(([A-Z][a-z0-9]+){2,})$', text)` as a boolean test. -/
def isWikiWord (l : Line) : Bool :=
  match l with
  | c :: rest =>
    if isUpperAZ c then
      (match wikiAux rest 1 true with
       | some n => decide (2 ≤ n)
       | none => false)
    else false
  | [] => false

/-- The character class `[^()\s]` of the alias pattern. -/
def isAliasTokChar (c : Char) : Bool := !(c == '(' || c == ')' || pyIsSpace c)

/-- `re.match(r'\(([^()\s]+)\)$', text)`: returns the captured token.  The
token class excludes `)`, so the greedy `+` cannot give characters back and
maximal munch coincides with the regex. -/
def aliasMatch (l : Line) : Option Line :=
  match l with
  | '(' :: rest =>
    let tok := rest.takeWhile isAliasTokChar
    if tok ≠ [] ∧ rest.dropWhile isAliasTokChar = [')'] then some tok else none
  | _ => none

/-- Tree node built by `OtlNode.__init__`.  `depth` is `-1` for the
synthetic whole-file root, `lineNumber` is `line_idx + 1` (0 for the root),
`text` is the line with leading tabs and trailing whitespace stripped
(`none` for an unnamed root). -/
inductive OtlNode : Type where
  | mk (lineNumber : Nat) (depth : Int) (text : Option Line)
       (wikiName : Option Line) (aliasName : Option Line)
       (children : List OtlNode) : OtlNode

instance : Inhabited OtlNode := ⟨OtlNode.mk 0 (-1) none none none []⟩

def OtlNode.lineNumber : OtlNode → Nat
  | .mk n _ _ _ _ _ => n

def OtlNode.depth : OtlNode → Int
  | .mk _ d _ _ _ _ => d

def OtlNode.text : OtlNode → Option Line
  | .mk _ _ t _ _ _ => t

def OtlNode.wikiName : OtlNode → Option Line
  | .mk _ _ _ w _ _ => w

def OtlNode.aliasName : OtlNode → Option Line
  | .mk _ _ _ _ a _ => a

def OtlNode.children : OtlNode → List OtlNode
  | .mk _ _ _ _ _ cs => cs

/-- The `c.alias_name = None` assignment of the header-block pass. -/
def setAliasNone : OtlNode → OtlNode
  | .mk n d t w _ cs => .mk n d t w none cs

/-- Clearing `alias_name` on every remaining child once `in_header_block`
has become false (on the children that carry no alias this is the identity,
exactly as in the Python loop). -/
def clearAliases : List OtlNode → List OtlNode
  | [] => []
  | c :: rest => setAliasNone c :: clearAliases rest

/-- The `in_header_block` pass of `OtlNode.__init__`: children keep their
alias while the unbroken run of alias-bearing children from child 0 lasts;
the first child without an alias ends it for all later siblings. -/
def promoteAliases : List OtlNode → List OtlNode
  | [] => []
  | c :: rest =>
    if (OtlNode.aliasName c).isSome then c :: promoteAliases rest
    else c :: clearAliases rest

/-- Construction of the node for `lines[i]` once its children have been
collected: `line_number = i + 1`, the header-block pass over the children,
then the wikiword and alias matches on the node's own text. -/
def mkOtlNode (i : Nat) (d : Nat) (text : Line) (kids : List OtlNode) : OtlNode :=
  OtlNode.mk (i + 1) (d : Int) (some text)
    (if isWikiWord text then some text else none)
    (aliasMatch text)
    (promoteAliases kids)

/-- The child-collecting `while i < len(lines)` loop of `OtlNode.__init__`,
together with the recursive construction of each child (inlined here): at
index `i`, while the line's depth exceeds `selfDepth`, parse a child and
continue behind it.  Python advances the loop with `i += len(child)`, which
equals the `next` index returned here (`parse_len_consumed` below proves
the equality); `none` propagates the `IndexError` of `otlDepth`.  The fuel
argument only bounds the recursion depth: every recursive call strictly
increases `i`, so `lines.length + 1` units never run out (`parse_total`). -/
def parseSiblingsF : Nat → List Line → Int → Nat → Option (List OtlNode × Nat)
  | 0, _, _, _ => none
  | fuel + 1, lines, selfDepth, i =>
    if h : i < lines.length then
      match otlDepth (lines.get ⟨i, h⟩) with
      | none => none
      | some (d, text) =>
        if selfDepth < (d : Int) then
          match parseSiblingsF fuel lines (d : Int) (i + 1) with
          | none => none
          | some (kids, next) =>
            match parseSiblingsF fuel lines selfDepth next with
            | none => none
            | some (siblings, fin) => some (mkOtlNode i d text kids :: siblings, fin)
        else some ([], i)
    else some ([], i)

/-- `OtlNode(lines, line_idx=-1, name=name)`: the synthetic root at depth
`-1` owning the document's top-level nodes.  `text` is `name` (or `None`),
and the header-block pass and the wikiword/alias matches run on the root
exactly as on any other node. -/
def parseRoot (lines : List Line) (name : Option Line) : Option OtlNode :=
  match parseSiblingsF (lines.length + 1) lines (-1) 0 with
  | none => none
  | some (kids, _) =>
    some (OtlNode.mk 0 (-1) name
      (match name with
       | some t => if isWikiWord t then some t else none
       | none => none)
      (match name with
       | some t => aliasMatch t
       | none => none)
      (promoteAliases kids))

mutual

/-- `OtlNode.__len__`: one for this node when `depth >= 0` (i.e. not the
synthetic root), plus the sizes of the children. -/
def nodeLen : OtlNode → Nat
  | .mk _ d _ _ _ cs => (if 0 ≤ d then 1 else 0) + nodeLenF cs

def nodeLenF : List OtlNode → Nat
  | [] => 0
  | c :: rest => nodeLen c + nodeLenF rest

end

mutual

/-- Depth-first pre-order list of the `line_number` fields of a subtree. -/
def nodeLineNums : OtlNode → List Nat
  | .mk n _ _ _ _ cs => n :: nodeLineNumsF cs

def nodeLineNumsF : List OtlNode → List Nat
  | [] => []
  | c :: rest => nodeLineNums c ++ nodeLineNumsF rest

end

mutual

/-- Depth-first pre-order list of all nodes of a subtree. -/
def allNodes : OtlNode → List OtlNode
  | .mk n d t w a cs => OtlNode.mk n d t w a cs :: allNodesF cs

def allNodesF : List OtlNode → List OtlNode
  | [] => []
  | c :: rest => allNodes c ++ allNodesF rest

end

/-- The alias-bearing children form a contiguous prefix: after the first
child without an alias no later sibling carries one. -/
def aliasPrefixOk : List OtlNode → Bool
  | [] => true
  | c :: rest =>
    if (OtlNode.aliasName c).isSome then aliasPrefixOk rest
    else rest.all (fun x => (OtlNode.aliasName x).isNone)

/-! ## Flashcard extraction (`OtlNode.anki_cards`, src/otltool.py) -/

/-- A flashcard record `{'front': ..., 'back': ...}`. -/
structure Card : Type where
  front : Line
  back : Line
deriving DecidableEq

/-- After a `{{`, the lazy group `(.*?)}}`: the shortest run of non-newline
characters followed by `}}`; returns the group and the text after the
closing braces. -/
def clozeGroup : Line → Option (Line × Line)
  | [] => none
  | c :: rest =>
    if c = '}' ∧ rest.head? = some '}' then some ([], rest.tail)
    else if c = '\n' then none
    else (clozeGroup rest).map (fun p => (c :: p.1, p.2))

/-- Leftmost match of `{{(.*?)}}`: prefix before the match, the captured
group, and the suffix after the match.  When the lazy group fails at one
`{{` (a newline intervenes before any `}}`), the scan resumes one character
further, as the regex engine does. -/
def findCloze : Line → Option (Line × Line × Line)
  | [] => none
  | c :: rest =>
    if c = '{' ∧ rest.head? = some '{' then
      (match clozeGroup rest.tail with
       | some (g, s) => some ([], g, s)
       | none => (findCloze rest).map (fun t => (c :: t.1, t.2.1, t.2.2)))
    else (findCloze rest).map (fun t => (c :: t.1, t.2.1, t.2.2))

/-- Iterated splitting, with explicit fuel.  Each match consumes at least
the four brace characters, so `l.length` units of fuel are never exhausted
(`clozeSplitF_fuel` below); the fuel only makes the recursion structural. -/
def clozeSplitF : Nat → Line → List Line
  | 0, l => [l]
  | fuel + 1, l =>
    match findCloze l with
    | none => [l]
    | some (p, g, s) => p :: g :: clozeSplitF fuel s

/-- `re.split(r'{{(.*?)}}', text)`: alternating unmatched parts and captured
groups, the groups at the odd indices. -/
def clozeSplit (l : Line) : List Line := clozeSplitF l.length l

/-- `range(1, n, 2)`. -/
def pyRange1Step2 (n : Nat) : List Nat := (List.range n).filter (fun k => k % 2 = 1)

/-- The ellipsis placeholder `'...'` substituted for one blank. -/
def ellipsis : Line := ['.', '.', '.']

/-- `str.endswith`. -/
def endsWith (l : Line) (s : Line) : Bool := s.isSuffixOf l

/-- `endswith` applied to an optional text (Python would raise
`AttributeError` on `None`; in parser output every non-root node carries a
text, so the case never arises and the model lets the condition fail). -/
def optEndsWith (t : Option Line) (s : Line) : Bool :=
  match t with
  | some l => endsWith l s
  | none => false

/-- `is_item = self.text and self.text[0] not in (':', ';', '<', '>')` —
false when the text is `None` or empty (both falsy). -/
def isItemText : Option Line → Bool
  | some (c :: _) => !(c == ':' || c == ';' || c == '<' || c == '>')
  | _ => false

/-- The text of `self.children[0]`, when there is a first child. -/
def headText (cs : List OtlNode) : Option Line := cs.head?.bind OtlNode.text

/-- The guard of the question/answer branch of `anki_cards`: `is_item`,
exactly one child, the node's text ends in `?`, and the child's text ends
in `.` but not in `..`. -/
def qaCond (t : Option Line) (cs : List OtlNode) : Bool :=
  isItemText t && cs.length == 1 && optEndsWith t ['?'] &&
  optEndsWith (headText cs) ['.'] && !optEndsWith (headText cs) ['.', '.']

/-- The guard of the cloze branch of `anki_cards`: `is_item`, no children,
the split on `{{...}}` produced more than one part, and the text ends in
`.` but not in `..`. -/
def clozeCond (t : Option Line) (cs : List OtlNode) : Bool :=
  match t with
  | some txt =>
    isItemText t && cs.isEmpty && decide (1 < (clozeSplit txt).length) &&
    endsWith txt ['.'] && !endsWith txt ['.', '.']
  | none => false

/-- The cloze card list: one card per captured group (the odd indices of the
split), whose front substitutes the ellipsis for that one group and whose
back joins all parts unchanged. -/
def clozeCardList (txt : Line) : List Card :=
  (pyRange1Step2 (clozeSplit txt).length).map
    (fun k => ⟨List.flatten ((clozeSplit txt).set k ellipsis), List.flatten (clozeSplit txt)⟩)

mutual

/-- `OtlNode.anki_cards`: a question/answer pair from a `?`-ending node with
exactly one `.`-ending child (no recursion into the child), cloze cards from
a childless `.`-ending node whose text splits on `{{...}}`, and otherwise
the concatenation of the children's cards. -/
def ankiCards : OtlNode → List Card
  | .mk _ _ t _ _ cs =>
    if qaCond t cs then [⟨t.getD [], (headText cs).getD []⟩]
    else if clozeCond t cs then
      (match t with
       | some txt => clozeCardList txt
       | none => [])
    else ankiCardsF cs

def ankiCardsF : List OtlNode → List Card
  | [] => []
  | c :: rest => ankiCards c ++ ankiCardsF rest

end

/-! ## The J-notebook evaluator (`eval_j_code` and helpers, src/otltool.py) -/

/-- The no-break space marking generated output lines. -/
def nbsp : Char := ' '

/-- Three spaces, the J session input indentation. -/
def threeSpaces : Line := [' ', ' ', ' ']

/-- `format_j_code`: drop generated lines (trailing no-break space), indent
the rest to three columns when not already so indented. -/
def format_j_code (lines : List Line) : List Line :=
  lines.filterMap (fun line =>
    if endsWith line [nbsp] then none
    else if threeSpaces.isPrefixOf line then some line
    else some (threeSpaces ++ line))

/-- `re.sub(r'NB\..*$', '', line)`: cut at the first `NB.`.  (The `$` of the
pattern only matters for lines with interior newlines, which block bodies —
being single lines — never contain.) -/
def cutNB : Line → Line
  | [] => []
  | 'N' :: 'B' :: '.' :: _ => []
  | c :: rest => c :: cutNB rest

/-- `re.sub(r'\s+', ' ', line)`: collapse every whitespace run to one
space. -/
def collapseWs : Line → Line
  | [] => []
  | c :: rest =>
    if pyIsSpace c then
      (match rest with
       | d :: _ => if pyIsSpace d then collapseWs rest else ' ' :: collapseWs rest
       | [] => [' '])
    else c :: collapseWs rest

/-- `hash_j_code` up to the `hashlib.md5(...).hexdigest()` call: strip `NB.`
comments, strip each line, drop blank lines, collapse whitespace runs and
join with newlines.  The md5 call is a fixed pure function of this string,
abstracted as the `md5F` parameter of `hash_j_code`. -/
def normalize_j_code (lines : List Line) : Line :=
  List.intercalate ['\n'] (lines.filterMap (fun line =>
    let l := pyStrip (cutNB line)
    if l = [] then none else some (collapseWs l)))

/-- `hash_j_code`, with the md5 hex-digest map supplied as a parameter. -/
def hash_j_code (md5F : Line → Line) (lines : List Line) : Line :=
  md5F (normalize_j_code lines)

/-- `\w`, restricted to ASCII (md5 digests are hexadecimal). -/
def isWordChar (c : Char) : Bool :=
  (decide ('a' ≤ c) && decide (c ≤ 'z')) || (decide ('A' ≤ c) && decide (c ≤ 'Z')) ||
  (decide ('0' ≤ c) && decide (c ≤ '9')) || c == '_'

/-- The lazy capture `(.+?)\b`: the shortest non-empty run of non-newline
characters ending at a word boundary (a word/non-word transition, or the
end of the string after a word character). -/
def capMinimal : Line → Option Line
  | [] => none
  | [c] => if c ≠ '\n' ∧ isWordChar c then some [c] else none
  | c :: d :: rest =>
    if c = '\n' then none
    else if isWordChar c ≠ isWordChar d then some [c]
    else (capMinimal (d :: rest)).map (fun t => c :: t)

/-- `'md5:'` as a prefix test — also `x.startswith('md5:')`. -/
def startsMd5 (l : Line) : Bool := l.take 4 == ['m', 'd', '5', ':']

/-- The name contains `md5:` somewhere as a contiguous substring. -/
def containsMd5 : Line → Bool
  | [] => false
  | c :: rest => startsMd5 (c :: rest) || containsMd5 rest

/-- `re.search(r'md5:(.+?)\b', name)`: leftmost `md5:` followed by a valid
lazy capture; on a failing position the scan resumes one character on. -/
def pySearchMd5 : Line → Option Line
  | [] => none
  | c :: rest =>
    if startsMd5 (c :: rest) then
      (match capMinimal (rest.drop 3) with
       | some cap => some cap
       | none => pySearchMd5 rest)
    else pySearchMd5 rest

/-- `str.split()` with no arguments: whitespace-run separated tokens, no
empties; `acc` is the token under construction. -/
def pySplitWsAux : Line → Line → List Line
  | [], acc => if acc = [] then [] else [acc]
  | c :: rest, acc =>
    if pyIsSpace c then
      (if acc = [] then pySplitWsAux rest [] else acc :: pySplitWsAux rest [])
    else pySplitWsAux rest (acc ++ [c])

/-- `name.split()`. -/
def pySplitWs (l : Line) : List Line := pySplitWsAux l []

/-- `' '.join(tokens)`. -/
def joinSp : List Line → Line
  | [] => []
  | [t] => t
  | t :: ts => t ++ ' ' :: joinSp ts

/-- `' '.join(x for x in name.split() if not x.startswith('md5:'))`. -/
def cleanName (name : Line) : Line :=
  joinSp ((pySplitWs name).filter (fun t => !startsMd5 t))

/-- `j` followed by a word boundary. -/
def startsJB : Line → Bool
  | 'j' :: rest =>
    (match rest with
     | [] => true
     | d :: _ => !isWordChar d)
  | _ => false

/-- `re.match(r'^\.?j\b', name)`: the executable-block tag. -/
def execTag (n : Line) : Bool :=
  match n with
  | '.' :: rest => startsJB rest
  | _ => startsJB n

/-- `j-lib` followed by a word boundary. -/
def startsJLibB : Line → Bool
  | 'j' :: '-' :: 'l' :: 'i' :: 'b' :: rest =>
    (match rest with
     | [] => true
     | d :: _ => !isWordChar d)
  | _ => false

/-- `re.match(r'^\.?j-lib\b', name)`: the library-block tag. -/
def libTag (n : Line) : Bool :=
  match n with
  | '.' :: rest => startsJLibB rest
  | _ => startsJLibB n

/-- The record-separator sentinel `'␞'` echoed to find real output. -/
def rsChar : Char := '␞'

/-- `str.splitlines()` for newline-separated text (the `\n` case; the other
Python line boundaries do not occur in interpreter output here). -/
def pySplitlines (l : Line) : List Line :=
  if l = [] then []
  else
    let ps := l.splitOn '\n'
    if l.getLast? = some '\n' then ps.dropLast else ps

/-- `line.split('␞')[-1]`: the part after the last sentinel. -/
def afterLastRS (l : Line) : Line := (l.splitOn rsChar).getLastD []

/-- The output-filtering loop of `eval_j_code.exec`: skip banner noise until
a line carries the sentinel (keeping only what follows its last occurrence),
drop blank lines, strip the echoed three-space prompt from the first kept
line, and tag every kept line with a trailing no-break space. -/
def pyExecFilterAux : List Line → Bool → List Line → List Line
  | [], _, ret => ret
  | line :: rest, junk, ret =>
    if junk && !line.contains rsChar then pyExecFilterAux rest true ret
    else
      let l1 := if junk then afterLastRS line else line
      if pyStrip l1 = [] then pyExecFilterAux rest false ret
      else
        let l2 := if ret = [] ∧ threeSpaces.isPrefixOf l1 then l1.drop 3 else l1
        pyExecFilterAux rest false (ret ++ [pyRstrip l2 ++ [nbsp]])

/-- Post-processing of the raw interpreter stdout in `eval_j_code.exec`. -/
def pyExecFilter (raw : Line) : List Line := pyExecFilterAux (pySplitlines raw) true []

/-- The line `echo '␞'` sent to flush the console noise. -/
def echoLine : Line := ['e', 'c', 'h', 'o', ' ', '\'', rsChar, '\'']

/-- `code_lines.insert(-1, x)`: Python inserts before the last element. -/
def insertBeforeLast (x : Line) (l : List Line) : List Line :=
  l.dropLast ++ x :: (match l.getLast? with | some la => [la] | none => [])

/-- The main loop of `eval_j_code`: `trail` accumulates library-block bodies,
`count` counts interpreter invocations, and the segments are processed in
document order.  `jconsole = none` models that neither `ijconsole` nor
`jconsole` is on the search path, in which case an attempted invocation is
`sys.exit(1)` after a stderr diagnostic — modelled as `Except.error 1`
aborting the whole run. -/
def evalGo (md5F : Line → Line) (jconsole : Option (Line → Line)) (force : Bool) :
    List Line → Nat → List Segment → Except Nat (List Segment × Nat)
  | _, count, [] => Except.ok ([], count)
  | trail, count, Segment.plain ls :: rest =>
    (evalGo md5F jconsole force trail count rest).map
      (fun r => (Segment.plain ls :: r.1, r.2))
  | trail, count, Segment.block name d text :: rest =>
    if libTag name then
      (evalGo md5F jconsole force (trail ++ text) count rest).map
        (fun r => (Segment.block name d text :: r.1, r.2))
    else if execTag name then
      let cached := pySearchMd5 name
      let formatted := format_j_code text
      let code_lines := trail ++ formatted
      let digest := hash_j_code md5F code_lines
      let code_lines2 :=
        match formatted.getLast? with
        | some last => if pyStrip last ≠ [')'] then insertBeforeLast echoLine code_lines else code_lines
        | none => code_lines
      if !force && cached = some digest then
        (evalGo md5F jconsole force trail count rest).map
          (fun r => (Segment.block name d text :: r.1, r.2))
      else
        match jconsole with
        | none => Except.error 1
        | some j =>
          let output := pyExecFilter (j (List.intercalate ['\n'] code_lines2))
          let newName := cleanName name ++ ' ' :: 'm' :: 'd' :: '5' :: ':' :: digest
          (evalGo md5F jconsole force trail (count + 1) rest).map
            (fun r => (Segment.block newName d (formatted ++ output) :: r.1, r.2))
    else
      (evalGo md5F jconsole force trail count rest).map
        (fun r => (Segment.block name d text :: r.1, r.2))

/-- `eval_j_code(seq, force)` from src/otltool.py, with the md5 hex digest
and the J interpreter abstracted as pure capabilities `md5F` and `jconsole`;
the returned number counts subprocess invocations. -/
def eval_j_code (md5F : Line → Line) (jconsole : Option (Line → Line)) (force : Bool)
    (seq : List Segment) : Except Nat (List Segment × Nat) :=
  evalGo md5F jconsole force [] 0 seq

/-! ## The tag-index merge (`write_tags`, src/otlbook.py) -/

/-- A `Tag(name, path, line)` record; `line = 0` marks a file-level tag.
(In the source the in-file records carry the raw line text in this field;
the merge only ever tests `== 0`, which holds exactly for the file-level
records, so a numeric field with 0 reserved for them is faithful.) -/
structure OTag : Type where
  name : Line
  path : Line
  line : Nat
deriving DecidableEq

/-- Lookup in the association-list model of the Python dict `tag_json`. -/
def lookupTag : List (Line × Line) → Line → Option Line
  | [], _ => none
  | (k, v) :: rest, key => if k = key then some v else lookupTag rest key

/-- `tag_json[name] = path`: overwrite or append. -/
def setTag : List (Line × Line) → Line → Line → List (Line × Line)
  | [], key, v => [(key, v)]
  | (k, w) :: rest, key, v =>
    if k = key then (k, v) :: rest else (k, w) :: setTag rest key v

/-- One iteration of the `for t in tags` loop building `tag_json` in
`write_tags`: write when the name is absent or the record is file-level
(line 0); in-file records store `'<file>#<name>'`, file-level records the
bare path. -/
def tagJsonStep (m : List (Line × Line)) (t : OTag) : List (Line × Line) :=
  if (lookupTag m t.name).isNone || t.line == 0 then
    setTag m t.name (if t.line ≠ 0 then t.path ++ '#' :: t.name else t.path)
  else m

/-- The `tag_json` merge of `write_tags` over the full record list. -/
def tagJson (tags : List OTag) : List (Line × Line) :=
  tags.foldl tagJsonStep []

/-- The lines `join_user_blocks` would emit for a reversed accumulator, as
maintained by `splitStep` (head = most recent segment). -/
def outRev (acc : List Segment) : List Line :=
  List.flatten (acc.reverse.map segmentLines)

/-! ## Concrete example documents used as witnesses -/

/-- A three-line document with a three-level depth jump. -/
def c10Lines : List Line := [['a'], ['\t', '\t', '\t', 'b'], ['c']]

/-- The tree the parser builds for `c10Lines`. -/
def c10Tree : OtlNode :=
  OtlNode.mk 0 (-1) none none none
    [OtlNode.mk 1 0 (some ['a']) none none
      [OtlNode.mk 2 3 (some ['b']) none none []],
     OtlNode.mk 3 0 (some ['c']) none none []]

/-- The spec's alias-promotion example: children `(A)`, `(B)`, `Not alias`
(shortened to `No`), `(C)`. -/
def c4Lines : List Line :=
  [['P', 'a'], ['\t', '(', 'A', ')'], ['\t', '(', 'B', ')'],
   ['\t', 'N', 'o'], ['\t', '(', 'C', ')']]

/-- The tree the parser builds for `c4Lines`: `(A)` and `(B)` keep their
aliases, `(C)` — after the alias-less child — has its alias cleared. -/
def c4Tree : OtlNode :=
  OtlNode.mk 0 (-1) none none none
    [OtlNode.mk 1 0 (some ['P', 'a']) none none
      [OtlNode.mk 2 1 (some ['(', 'A', ')']) none (some ['A']) [],
       OtlNode.mk 3 1 (some ['(', 'B', ')']) none (some ['B']) [],
       OtlNode.mk 4 1 (some ['N', 'o']) none none [],
       OtlNode.mk 5 1 (some ['(', 'C', ')']) none none []]]

/-- Inverse reassembly of a cloze split: interleave the parts, restoring the
`{{` `}}` markers around the groups (the odd positions). -/
def rejoinCloze : List Line → Line
  | [] => []
  | [x] => x
  | p :: g :: rest => p ++ '{' :: '{' :: (g ++ '}' :: '}' :: rejoinCloze rest)

/-- The spec's cloze example sentence. -/
def c5Text : Line := "The capital of \x7b\x7bFrance\x7d\x7d is \x7b\x7bParis\x7d\x7d.".toList

/-- A leaf node carrying the cloze example. -/
def c5Node : OtlNode := OtlNode.mk 1 0 (some c5Text) none none []

/-- The spec's question/answer example: the question line. -/
def c6QText : Line := "What is 2+2?".toList

/-- The spec's question/answer example: the answer line. -/
def c6AText : Line := "It is 4.".toList

/-- The question node with its single answer child. -/
def c6QANode : OtlNode :=
  OtlNode.mk 1 0 (some c6QText) none none [OtlNode.mk 2 1 (some c6AText) none none []]

/-- An answer line ending in `..` (the ellipsis convention). -/
def c6EllText : Line := "It is 4..".toList

/-- A grandchild whose text is a cloze sentence. -/
def c6GrandText : Line := "The answer is \x7b\x7b4\x7d\x7d.".toList

/-- A child that ends in `..` but itself has a card-yielding child. -/
def c6BadChild : OtlNode :=
  OtlNode.mk 2 1 (some c6EllText) none none [OtlNode.mk 3 2 (some c6GrandText) none none []]

/-- A `?`-ending node whose single child ends in `..` yet whose subtree
still yields a card. -/
def c6BadNode : OtlNode := OtlNode.mk 1 0 (some c6QText) none none [c6BadChild]

/-- A concrete stand-in digest map for witnesses: encodes each character's
code point in unary, giving a non-empty, all-word-character digest that
depends on its whole input. -/
def mockMd5 (l : Line) : Line :=
  'h' :: List.flatten (l.map (fun c => 'x' :: List.replicate c.toNat 'a'))

/-- A concrete stand-in interpreter for witnesses: one sentinel-led output
line. -/
def mockJConsole : Line → Line := fun _ => ['x', rsChar, '4', '\n']

/-- The C7 counterexample bodies: two block-body lines differing in exactly
one character, inside an `NB.` comment. -/
def c7Body1 : Line := "   x NB. a".toList

/-- The second body: the comment character changed. -/
def c7Body2 : Line := "   x NB. b".toList

/-- The filtered interpreter output an executable block receives on a cache
miss: the body is formatted, the echo-sentinel line is inserted before the
last line unless that line is a lone closing paren, the joined source is
fed to the interpreter and its stdout is filtered.  This names the value
`evalGo` computes in its miss branch. -/
def evalBlockOutput (j : Line → Line) (trail : List Line)
    (text : List Line) : List Line :=
  pyExecFilter (j (List.intercalate ['\n']
    (match (format_j_code text).getLast? with
     | some last =>
       if pyStrip last ≠ [')'] then insertBeforeLast echoLine (trail ++ format_j_code text)
       else trail ++ format_j_code text
     | none => trail ++ format_j_code text)))

/-! # Theorems -/

/-! ## C1: the split/join round-trip law -/

theorem outRev_cons (s : Segment) (acc : List Segment) :
    outRev (s :: acc) = outRev acc ++ segmentLines s := by
  simp [outRev]

theorem rstripSnt_idem (l : Line) : rstripSnt (rstripSnt l) = rstripSnt l := by
  simp [rstripSnt, List.dropWhile_idempotent]

theorem rstripSnt_append_space (xs : Line) : rstripSnt (xs ++ [' ']) = rstripSnt xs := by
  simp [rstripSnt, List.dropWhile_cons, isSpaceNlTab]

theorem tabs_decomp (l : Line) : List.replicate (line_depth l) '\t' ++ dropTabs l = l := by
  induction l with
  | nil => simp [line_depth, dropTabs]
  | cons c rest ih =>
    by_cases hc : c = '\t'
    · subst hc
      simp [line_depth, dropTabs, List.replicate_succ, ih]
    · simp [line_depth, dropTabs, hc]

theorem take_two_decomp {l : Line} {a b : Char} (h : l.take 2 = [a, b]) :
    l = a :: b :: l.drop 2 := by
  match l with
  | [] => simp at h
  | [x] => simp at h
  | x :: y :: rest =>
    simp at h
    obtain ⟨h1, h2⟩ := h
    subst h1; subst h2
    simp

theorem emit_body_eq (line : Line) (h : rstripSnt line = line)
    (hA : (dropTabs line).take 2 = [';', ' '] ∨ dropTabs line = [';']) :
    rstripSnt (List.replicate (line_depth line) '\t' ++ ';' :: ' ' :: (dropTabs line).drop 2)
      = line := by
  rcases hA with hA | hA
  · have hd : dropTabs line = ';' :: ' ' :: (dropTabs line).drop 2 := take_two_decomp hA
    rw [← hd, tabs_decomp, h]
  · rw [hA]
    have : List.replicate (line_depth line) '\t' ++ ';' :: ' ' :: ([';'] : Line).drop 2
        = (List.replicate (line_depth line) '\t' ++ [';']) ++ [' '] := by simp
    rw [this, rstripSnt_append_space]
    have h2 : List.replicate (line_depth line) '\t' ++ [';'] = line := by
      have := tabs_decomp line
      rwa [hA] at this
    rw [h2, h]

theorem emit_header_eq (line : Line) (hB : (dropTabs line).head? = some ';') :
    List.replicate (line_depth line) '\t' ++ ';' :: (dropTabs line).tail = line := by
  have hd : dropTabs line = ';' :: (dropTabs line).tail := by
    cases hdt : dropTabs line with
    | nil => rw [hdt] at hB; simp at hB
    | cons c rest =>
      rw [hdt] at hB
      simp at hB
      subst hB
      simp
  rw [← hd, tabs_decomp]

theorem outRev_splitStep (acc : List Segment) (raw : Line) :
    outRev (splitStep acc raw) = outRev acc ++ [rstripSnt raw] := by
  have hidem : rstripSnt (rstripSnt raw) = rstripSnt raw := rstripSnt_idem raw
  unfold splitStep
  by_cases hA : (dropTabs (rstripSnt raw)).take 2 = [';', ' '] ∨ dropTabs (rstripSnt raw) = [';']
  · have hemit := emit_body_eq (rstripSnt raw) hidem hA
    simp only [hA, if_pos, if_true]
    cases acc with
    | nil => simp [outRev_cons, segmentLines, hemit]
    | cons s accT =>
      cases s with
      | plain ls => simp [outRev_cons, segmentLines, hemit]
      | block n d t =>
        by_cases hd : d = line_depth (rstripSnt raw)
        · simp only [hd, if_pos, if_true]
          simp [outRev_cons, segmentLines, List.map_append, hemit, List.append_assoc]
        · simp only [hd, if_neg, if_false]
          simp [outRev_cons, segmentLines, hemit]
  · simp only [hA, if_neg, if_false]
    by_cases hB : (dropTabs (rstripSnt raw)).head? = some ';'
    · have hemit := emit_header_eq (rstripSnt raw) hB
      have hname : (dropTabs (rstripSnt raw)).tail ≠ [] := by
        intro hnil
        cases hdt : dropTabs (rstripSnt raw) with
        | nil => rw [hdt] at hB; simp at hB
        | cons c rest =>
          rw [hdt] at hB
          simp at hB
          rw [hdt] at hnil
          simp at hnil
          apply hA
          right
          rw [hdt, hB, hnil]
      simp only [hB, if_pos, if_true]
      simp [outRev_cons, segmentLines, hname, hemit]
    · simp only [hB, if_neg, if_false]
      cases acc with
      | nil => simp [outRev_cons, segmentLines]
      | cons s accT =>
        cases s with
        | plain ls => simp [outRev_cons, segmentLines]
        | block n d t => simp [outRev_cons, segmentLines]

theorem outRev_foldl (L : List Line) : ∀ acc : List Segment,
    outRev (L.foldl splitStep acc) = outRev acc ++ L.map rstripSnt := by
  induction L with
  | nil => intro acc; simp
  | cons l rest ih =>
    intro acc
    simp only [List.foldl_cons, List.map_cons]
    rw [ih (splitStep acc l), outRev_splitStep]
    simp [List.append_assoc]

/-- C1: for every sequence of input lines `L`, `join_user_blocks
(split_user_blocks L)` reproduces `L` exactly, except that each line's
trailing whitespace (trailing spaces, tabs and newlines — the character set
of `rstrip(' \n\t')`) is stripped: the joined output is the newline-join of
the per-line normalized text, one output line per input line, in order. -/
theorem c1_join_split_roundtrip (L : List Line) :
    join_user_blocks (split_user_blocks L) = List.intercalate ['\n'] (L.map rstripSnt) := by
  have h := outRev_foldl L []
  simp only [outRev, List.reverse_nil, List.map_nil, List.flatten_nil, List.nil_append] at h
  unfold join_user_blocks split_user_blocks
  rw [← h]

/-! ## C2: totality of the parser -/

theorem otlDepth_some (l : Line) (h : l.any (fun c => c != '\t') = true) :
    (otlDepth l).isSome := by
  induction l with
  | nil => simp at h
  | cons c rest ih =>
    by_cases hc : c = '\t'
    · subst hc
      have hr : rest.any (fun c => c != '\t') = true := by simpa using h
      rw [otlDepth]
      simp only [if_pos rfl]
      have := ih hr
      cases hd : otlDepth rest with
      | none => rw [hd] at this; simp at this
      | some p => simp [hd]
    · rw [otlDepth]
      simp [hc]

/-- Inversion of one step of `parseSiblingsF`. -/
theorem parseSiblingsF_inv {fuel : Nat} {lines : List Line} {d : Int} {i : Nat}
    {cs : List OtlNode} {fin : Nat}
    (h : parseSiblingsF (fuel + 1) lines d i = some (cs, fin)) :
    (¬ i < lines.length ∧ cs = [] ∧ fin = i) ∨
    (∃ hi : i < lines.length, ∃ dep text,
      otlDepth (lines.get ⟨i, hi⟩) = some (dep, text) ∧
      ((¬ d < (dep : Int)) ∧ cs = [] ∧ fin = i ∨
       (d < (dep : Int) ∧ ∃ kids next sibs,
         parseSiblingsF fuel lines (dep : Int) (i + 1) = some (kids, next) ∧
         parseSiblingsF fuel lines d next = some (sibs, fin) ∧
         cs = mkOtlNode i dep text kids :: sibs))) := by
  rw [parseSiblingsF] at h
  by_cases hi : i < lines.length
  · rw [dif_pos hi] at h
    split at h
    · simp at h
    · rename_i dep text hdep
      split at h
      · rename_i hgt
        split at h
        · simp at h
        · rename_i kids next hk
          split at h
          · simp at h
          · rename_i sibs fin' hs
            simp only [Option.some_inj, Prod.mk.injEq] at h
            obtain ⟨hcs, hfin⟩ := h
            subst hfin
            exact Or.inr ⟨hi, dep, text, hdep,
              Or.inr ⟨hgt, kids, next, sibs, hk, hs, hcs.symm⟩⟩
      · rename_i hgt
        simp only [Option.some_inj, Prod.mk.injEq] at h
        exact Or.inr ⟨hi, dep, text, hdep, Or.inl ⟨hgt, h.1.symm, h.2.symm⟩⟩
  · rw [dif_neg hi] at h
    simp only [Option.some_inj, Prod.mk.injEq] at h
    exact Or.inl ⟨hi, h.1.symm, h.2.symm⟩

theorem parseSiblingsF_le : ∀ (fuel : Nat) (lines : List Line) (d : Int) (i : Nat)
    (cs : List OtlNode) (fin : Nat),
    parseSiblingsF fuel lines d i = some (cs, fin) → i ≤ fin := by
  intro fuel
  induction fuel with
  | zero => intro lines d i cs fin h; rw [parseSiblingsF] at h; simp at h
  | succ fuel ih =>
    intro lines d i cs fin h
    rcases parseSiblingsF_inv h with ⟨-, -, rfl⟩ | ⟨hi, dep, text, hdep, hcase⟩
    · omega
    rcases hcase with ⟨-, -, rfl⟩ | ⟨-, kids, next, sibs, hk, hs, -⟩
    · omega
    have h1 := ih lines (dep : Int) (i + 1) kids next hk
    have h2 := ih lines d next sibs fin hs
    omega

theorem parseSiblingsF_le_len : ∀ (fuel : Nat) (lines : List Line) (d : Int) (i : Nat)
    (cs : List OtlNode) (fin : Nat), i ≤ lines.length →
    parseSiblingsF fuel lines d i = some (cs, fin) → fin ≤ lines.length := by
  intro fuel
  induction fuel with
  | zero => intro lines d i cs fin _ h; rw [parseSiblingsF] at h; simp at h
  | succ fuel ih =>
    intro lines d i cs fin hile h
    rcases parseSiblingsF_inv h with ⟨-, -, rfl⟩ | ⟨hi, dep, text, hdep, hcase⟩
    · exact hile
    rcases hcase with ⟨-, -, rfl⟩ | ⟨-, kids, next, sibs, hk, hs, -⟩
    · exact hile
    have h1 := ih lines (dep : Int) (i + 1) kids next (by omega) hk
    exact ih lines d next sibs fin h1 hs

theorem parseSiblingsF_total : ∀ (fuel : Nat) (lines : List Line) (d : Int) (i : Nat),
    (∀ l ∈ lines, l.any (fun c => c != '\t') = true) → lines.length - i < fuel →
    (parseSiblingsF fuel lines d i).isSome := by
  intro fuel
  induction fuel with
  | zero => intro lines d i _ hlt; omega
  | succ fuel ih =>
    intro lines d i hgood hlt
    rw [parseSiblingsF]
    by_cases hi : i < lines.length
    · rw [dif_pos hi]
      have hds := otlDepth_some _ (hgood _ (List.get_mem lines i hi))
      cases hdep : otlDepth (lines.get ⟨i, hi⟩) with
      | none => rw [hdep] at hds; simp at hds
      | some p =>
        obtain ⟨dep, text⟩ := p
        by_cases hgt : d < (dep : Int)
        · have hk := ih lines (dep : Int) (i + 1) hgood (by omega)
          cases hkk : parseSiblingsF fuel lines (dep : Int) (i + 1) with
          | none => rw [hkk] at hk; simp at hk
          | some kn =>
            obtain ⟨kids, next⟩ := kn
            have hnext : i + 1 ≤ next := parseSiblingsF_le _ _ _ _ _ _ hkk
            have hs := ih lines d next hgood (by omega)
            cases hss : parseSiblingsF fuel lines d next with
            | none => rw [hss] at hs; simp at hs
            | some sf => simp [if_pos hgt, hkk, hss]
        · simp [if_neg hgt]
    · rw [dif_neg hi]; simp

/-- C2 counterexample: the claim quantifies over every sequence of input
line strings, but on the one-line input consisting of the empty string the
`depth` helper evaluates `line[0]` past the end of the line, so the Python
constructor raises `IndexError` (modelled by `none`) instead of returning a
tree; the same happens on any line made of tabs only. -/
theorem c2_counterexample : (parseRoot [([] : Line)] none).isSome = false := by rfl

/-- C2 (amended): the parser is total — no error, a tree is always returned,
and arbitrarily large depth jumps are accepted — over every input in which
each line contains at least one non-tab character (as lines read from a
file do, since each carries its newline); a line that is empty or all tabs
instead makes the `depth` helper index past the end (`IndexError`). -/
theorem c2_parser_total (lines : List Line) (name : Option Line)
    (h : ∀ l ∈ lines, l.any (fun c => c != '\t') = true) :
    (parseRoot lines name).isSome := by
  unfold parseRoot
  have htot := parseSiblingsF_total (lines.length + 1) lines (-1) 0 h (by omega)
  cases hp : parseSiblingsF (lines.length + 1) lines (-1) 0 with
  | none => rw [hp] at htot; simp at htot
  | some p => obtain ⟨kids, fin⟩ := p; simp

/-- C2 witness: a concrete two-line input with a three-level depth jump is
parsed successfully. -/
theorem c2_witness :
    (∀ l ∈ [['a'], ['\t', '\t', '\t', 'b']], l.any (fun c => c != '\t') = true) ∧
    (parseRoot [['a'], ['\t', '\t', '\t', 'b']] none).isSome :=
  ⟨by decide, c2_parser_total _ none (by decide)⟩

/-! ## C10: one node per line, pre-order line numbering -/

theorem setAliasNone_children (c : OtlNode) :
    OtlNode.children (setAliasNone c) = OtlNode.children c := by
  cases c; rfl

theorem setAliasNone_aliasName (c : OtlNode) :
    OtlNode.aliasName (setAliasNone c) = none := by
  cases c; rfl

theorem nodeLineNums_setAliasNone (c : OtlNode) :
    nodeLineNums (setAliasNone c) = nodeLineNums c := by
  cases c; rfl

theorem nodeLen_setAliasNone (c : OtlNode) :
    nodeLen (setAliasNone c) = nodeLen c := by
  cases c; rfl

theorem nodeLineNumsF_clearAliases (cs : List OtlNode) :
    nodeLineNumsF (clearAliases cs) = nodeLineNumsF cs := by
  induction cs with
  | nil => rfl
  | cons c rest ih => simp [clearAliases, nodeLineNumsF, nodeLineNums_setAliasNone, ih]

theorem nodeLineNumsF_promoteAliases (cs : List OtlNode) :
    nodeLineNumsF (promoteAliases cs) = nodeLineNumsF cs := by
  induction cs with
  | nil => rfl
  | cons c rest ih =>
    by_cases hc : (OtlNode.aliasName c).isSome
    · simp [promoteAliases, hc, nodeLineNumsF, ih]
    · simp [promoteAliases, hc, nodeLineNumsF, nodeLineNumsF_clearAliases]

theorem nodeLenF_clearAliases (cs : List OtlNode) :
    nodeLenF (clearAliases cs) = nodeLenF cs := by
  induction cs with
  | nil => rfl
  | cons c rest ih => simp [clearAliases, nodeLenF, nodeLen_setAliasNone, ih]

theorem nodeLenF_promoteAliases (cs : List OtlNode) :
    nodeLenF (promoteAliases cs) = nodeLenF cs := by
  induction cs with
  | nil => rfl
  | cons c rest ih =>
    by_cases hc : (OtlNode.aliasName c).isSome
    · simp [promoteAliases, hc, nodeLenF, ih]
    · simp [promoteAliases, hc, nodeLenF, nodeLenF_clearAliases]

/-- The main parse induction: the nodes built from lines `i..fin` carry
exactly the line numbers `i+1, ..., fin` in depth-first pre-order, and the
total `__len__` of the forest equals the number of consumed lines. -/
theorem parse_lineNums : ∀ (fuel : Nat) (lines : List Line) (d : Int) (i : Nat)
    (cs : List OtlNode) (fin : Nat),
    parseSiblingsF fuel lines d i = some (cs, fin) →
    nodeLineNumsF cs = List.range' (i + 1) (fin - i) ∧ nodeLenF cs = fin - i := by
  intro fuel
  induction fuel with
  | zero => intro lines d i cs fin h; rw [parseSiblingsF] at h; simp at h
  | succ fuel ih =>
    intro lines d i cs fin h
    rcases parseSiblingsF_inv h with ⟨-, rfl, rfl⟩ | ⟨hi, dep, text, hdep, hcase⟩
    · simp [nodeLineNumsF, nodeLenF]
    rcases hcase with ⟨-, rfl, rfl⟩ | ⟨hgt, kids, next, sibs, hk, hs, rfl⟩
    · simp [nodeLineNumsF, nodeLenF]
    have hnext := parseSiblingsF_le _ _ _ _ _ _ hk
    have hfin := parseSiblingsF_le _ _ _ _ _ _ hs
    obtain ⟨ihk1, ihk2⟩ := ih lines (dep : Int) (i + 1) kids next hk
    obtain ⟨ihs1, ihs2⟩ := ih lines d next sibs fin hs
    constructor
    · show nodeLineNums (mkOtlNode i dep text kids) ++ nodeLineNumsF sibs = _
      have hnode : nodeLineNums (mkOtlNode i dep text kids)
          = (i + 1) :: nodeLineNumsF kids := by
        simp [mkOtlNode, nodeLineNums, nodeLineNumsF_promoteAliases]
      rw [hnode, ihk1, ihs1, List.cons_append]
      have h3 := List.range'_append (i + 1 + 1) (next - (i + 1)) (fin - next) 1
      simp only [one_mul] at h3
      have h4 : i + 1 + 1 + (next - (i + 1)) = next + 1 := by omega
      rw [h4] at h3
      rw [h3]
      have h5 : fin - i = ((fin - next) + (next - (i + 1))) + 1 := by omega
      rw [h5, List.range'_succ]
    · show nodeLen (mkOtlNode i dep text kids) + nodeLenF sibs = _
      have hnode : nodeLen (mkOtlNode i dep text kids) = 1 + nodeLenF kids := by
        simp [mkOtlNode, nodeLen, nodeLenF_promoteAliases]
      rw [hnode, ihk2, ihs2]
      omega

/-- At the root depth `-1` every line's depth exceeds the node depth, so a
successful scan only stops at the end of the input. -/
theorem parseSiblingsF_root_fin : ∀ (fuel : Nat) (lines : List Line) (i : Nat)
    (cs : List OtlNode) (fin : Nat), i ≤ lines.length →
    parseSiblingsF fuel lines (-1) i = some (cs, fin) → fin = lines.length := by
  intro fuel
  induction fuel with
  | zero => intro lines i cs fin _ h; rw [parseSiblingsF] at h; simp at h
  | succ fuel ih =>
    intro lines i cs fin hile h
    rcases parseSiblingsF_inv h with ⟨hnlt, -, rfl⟩ | ⟨hi, dep, text, hdep, hcase⟩
    · omega
    rcases hcase with ⟨hngt, -, -⟩ | ⟨-, kids, next, sibs, hk, hs, -⟩
    · exfalso; apply hngt; omega
    have h1 : next ≤ lines.length :=
      parseSiblingsF_le_len _ _ _ _ _ _ (by omega) hk
    exact ih lines next sibs fin h1 hs

/-- C10: for every input accepted by the parser, the tree has exactly one
node per input line plus the synthetic depth `-1` root with line number 0:
the depth-first pre-order of the line numbers is `0, 1, 2, ..., n` (so nodes
appear in document order and each node's `line_number` is the 1-based index
of its source line), and `len(root)` equals the number of input lines. -/
theorem c10_one_node_per_line (lines : List Line) (name : Option Line) (root : OtlNode)
    (h : parseRoot lines name = some root) :
    OtlNode.lineNumber root = 0 ∧ OtlNode.depth root = -1 ∧
    nodeLen root = lines.length ∧
    nodeLineNums root = 0 :: List.range' 1 lines.length := by
  unfold parseRoot at h
  cases hp : parseSiblingsF (lines.length + 1) lines (-1) 0 with
  | none => rw [hp] at h; simp at h
  | some p =>
    obtain ⟨kids, fin⟩ := p
    rw [hp] at h
    simp only [Option.some_inj] at h
    have hfin : fin = lines.length :=
      parseSiblingsF_root_fin _ _ _ _ _ (by omega) hp
    obtain ⟨h1, h2⟩ := parse_lineNums _ _ _ _ _ _ hp
    subst h
    refine ⟨rfl, rfl, ?_, ?_⟩
    · show (if (0 : Int) ≤ -1 then 1 else 0) + nodeLenF (promoteAliases kids) = _
      rw [nodeLenF_promoteAliases, h2]
      simp
      omega
    · show 0 :: nodeLineNumsF (promoteAliases kids) = _
      rw [nodeLineNumsF_promoteAliases, h1]
      simp
      omega

/-- C10 witness: a three-line document with a three-level depth jump parses
to a tree with pre-order line numbers `0, 1, 2, 3` and `len(root) = 3`. -/
theorem c10_witness :
    parseRoot c10Lines none = some c10Tree ∧
    nodeLen c10Tree = 3 ∧
    nodeLineNums c10Tree = 0 :: List.range' 1 3 :=
  ⟨rfl, (c10_one_node_per_line c10Lines none c10Tree rfl).2.2.1,
    (c10_one_node_per_line c10Lines none c10Tree rfl).2.2.2⟩

/-! ## C4: alias names survive only in the leading header block -/

theorem clearAliases_all_none (cs : List OtlNode) :
    ∀ n ∈ clearAliases cs, (OtlNode.aliasName n).isNone := by
  induction cs with
  | nil => intro n hn; simp [clearAliases] at hn
  | cons c rest ih =>
    intro n hn
    simp only [clearAliases, List.mem_cons] at hn
    rcases hn with rfl | hn
    · simp [setAliasNone_aliasName]
    · exact ih n hn

theorem aliasPrefixOk_promoteAliases (cs : List OtlNode) :
    aliasPrefixOk (promoteAliases cs) = true := by
  induction cs with
  | nil => rfl
  | cons c rest ih =>
    by_cases hc : (OtlNode.aliasName c).isSome
    · simp [promoteAliases, hc, aliasPrefixOk, ih]
    · simp only [promoteAliases, hc, if_false, Bool.false_eq_true]
      simp only [aliasPrefixOk, hc, if_false, Bool.false_eq_true]
      rw [List.all_eq_true]
      intro x hx
      simpa using clearAliases_all_none rest x hx

theorem allNodes_eq (c : OtlNode) :
    allNodes c = c :: allNodesF (OtlNode.children c) := by
  cases c; rfl

theorem allNodesF_clearAliases (cs : List OtlNode) :
    ∀ n ∈ allNodesF (clearAliases cs),
      ∃ m ∈ allNodesF cs, OtlNode.children n = OtlNode.children m := by
  induction cs with
  | nil => intro n hn; simp [clearAliases, allNodesF] at hn
  | cons c rest ih =>
    intro n hn
    simp only [clearAliases, allNodesF, List.mem_append] at hn
    rcases hn with hn | hn
    · rw [allNodes_eq, List.mem_cons] at hn
      rcases hn with rfl | hn
      · exact ⟨c, by simp [allNodesF, allNodes_eq], setAliasNone_children c⟩
      · rw [setAliasNone_children] at hn
        refine ⟨n, ?_, rfl⟩
        simp only [allNodesF, List.mem_append]
        left
        rw [allNodes_eq, List.mem_cons]
        exact Or.inr hn
    · obtain ⟨m, hm, he⟩ := ih n hn
      exact ⟨m, by simp [allNodesF, List.mem_append, hm], he⟩

theorem allNodesF_promoteAliases (cs : List OtlNode) :
    ∀ n ∈ allNodesF (promoteAliases cs),
      ∃ m ∈ allNodesF cs, OtlNode.children n = OtlNode.children m := by
  induction cs with
  | nil => intro n hn; simp [promoteAliases, allNodesF] at hn
  | cons c rest ih =>
    intro n hn
    by_cases hc : (OtlNode.aliasName c).isSome
    · simp only [promoteAliases, hc, if_true, allNodesF, List.mem_append] at hn
      rcases hn with hn | hn
      · exact ⟨n, by simp [allNodesF, List.mem_append, hn], rfl⟩
      · obtain ⟨m, hm, he⟩ := ih n hn
        exact ⟨m, by simp [allNodesF, List.mem_append, hm], he⟩
    · simp only [promoteAliases, hc, if_false, allNodesF, List.mem_append,
        Bool.false_eq_true] at hn
      rcases hn with hn | hn
      · exact ⟨n, by simp [allNodesF, List.mem_append, hn], rfl⟩
      · obtain ⟨m, hm, he⟩ := allNodesF_clearAliases rest n hn
        exact ⟨m, by simp [allNodesF, List.mem_append, hm], he⟩

/-- Parse induction for the header-block invariant. -/
theorem parse_aliasPrefix : ∀ (fuel : Nat) (lines : List Line) (d : Int) (i : Nat)
    (cs : List OtlNode) (fin : Nat),
    parseSiblingsF fuel lines d i = some (cs, fin) →
    ∀ n ∈ allNodesF cs, aliasPrefixOk (OtlNode.children n) = true := by
  intro fuel
  induction fuel with
  | zero => intro lines d i cs fin h; rw [parseSiblingsF] at h; simp at h
  | succ fuel ih =>
    intro lines d i cs fin h
    rcases parseSiblingsF_inv h with ⟨-, rfl, rfl⟩ | ⟨hi, dep, text, hdep, hcase⟩
    · intro n hn; simp [allNodesF] at hn
    rcases hcase with ⟨-, rfl, rfl⟩ | ⟨hgt, kids, next, sibs, hk, hs, rfl⟩
    · intro n hn; simp [allNodesF] at hn
    intro n hn
    simp only [allNodesF, List.mem_append] at hn
    rcases hn with hn | hn
    · rw [allNodes_eq, List.mem_cons] at hn
      rcases hn with rfl | hn
      · show aliasPrefixOk (OtlNode.children (mkOtlNode i dep text kids)) = true
        simp only [mkOtlNode, OtlNode.children]
        exact aliasPrefixOk_promoteAliases kids
      · simp only [mkOtlNode, OtlNode.children] at hn
        obtain ⟨m, hm, he⟩ := allNodesF_promoteAliases kids n hn
        rw [he]
        exact ih lines (dep : Int) (i + 1) kids next hk m hm
    · exact ih lines d next sibs fin hs n hn

/-- C4: in every parsed tree, a node's `alias_name` survives construction
only when the node lies in the contiguous prefix of its parent's children
that each carry an alias — after the first alias-less child, every later
sibling has `alias_name` cleared (even if its text matches the
parenthesized-alias pattern), so it does not register as a valid alias. -/
theorem c4_alias_header_prefix (lines : List Line) (name : Option Line) (root : OtlNode)
    (h : parseRoot lines name = some root) :
    ∀ n ∈ allNodes root, aliasPrefixOk (OtlNode.children n) = true := by
  unfold parseRoot at h
  cases hp : parseSiblingsF (lines.length + 1) lines (-1) 0 with
  | none => rw [hp] at h; simp at h
  | some p =>
    obtain ⟨kids, fin⟩ := p
    rw [hp] at h
    simp only [Option.some_inj] at h
    subst h
    intro n hn
    rw [allNodes_eq, List.mem_cons] at hn
    rcases hn with rfl | hn
    · show aliasPrefixOk (OtlNode.children (OtlNode.mk 0 (-1) _ _ _ (promoteAliases kids))) = true
      simp only [OtlNode.children]
      exact aliasPrefixOk_promoteAliases kids
    · simp only [OtlNode.children] at hn
      obtain ⟨m, hm, he⟩ := allNodesF_promoteAliases kids n hn
      rw [he]
      exact parse_aliasPrefix _ _ _ _ _ _ hp m hm

/-- C4 witness: the spec's example — children `(A)`, `(B)`, `Not alias`,
`(C)` — parses so that `(A)` and `(B)` keep their aliases, `(C)` (after the
first alias-less child) has its alias cleared, and the invariant holds at
every node. -/
theorem c4_witness :
    parseRoot c4Lines none = some c4Tree ∧
    aliasMatch ['(', 'C', ')'] = some ['C'] ∧
    (∀ n ∈ allNodes c4Tree, aliasPrefixOk (OtlNode.children n) = true) :=
  ⟨rfl, rfl, c4_alias_header_prefix c4Lines none c4Tree rfl⟩

/-! ## C5: cloze card extraction -/

theorem clozeGroup_spec : ∀ (l g s : Line), clozeGroup l = some (g, s) →
    l = g ++ '}' :: '}' :: s := by
  intro l
  induction l with
  | nil => intro g s h; simp [clozeGroup] at h
  | cons c rest ih =>
    intro g s h
    rw [clozeGroup] at h
    by_cases h1 : c = '}' ∧ rest.head? = some '}'
    · rw [if_pos h1] at h
      simp only [Option.some_inj, Prod.mk.injEq] at h
      obtain ⟨rfl, rfl⟩ := h
      obtain ⟨rfl, hh⟩ := h1
      cases rest with
      | nil => simp at hh
      | cons r rt =>
        simp only [List.head?_cons, Option.some_inj] at hh
        subst hh
        simp
    · rw [if_neg h1] at h
      by_cases h2 : c = '\n'
      · rw [if_pos h2] at h; simp at h
      · rw [if_neg h2] at h
        cases hg : clozeGroup rest with
        | none => rw [hg] at h; simp at h
        | some p =>
          rw [hg] at h
          obtain ⟨g', s'⟩ := p
          simp only [Option.map_some', Option.some_inj, Prod.mk.injEq] at h
          obtain ⟨rfl, rfl⟩ := h
          have := ih g' s' hg
          rw [this, List.cons_append]

theorem findCloze_spec : ∀ (l p g s : Line), findCloze l = some (p, g, s) →
    l = p ++ '{' :: '{' :: (g ++ '}' :: '}' :: s) := by
  intro l
  induction l with
  | nil => intro p g s h; simp [findCloze] at h
  | cons c rest ih =>
    intro p g s h
    rw [findCloze] at h
    by_cases h1 : c = '{' ∧ rest.head? = some '{'
    · rw [if_pos h1] at h
      cases hg : clozeGroup rest.tail with
      | none =>
        rw [hg] at h
        cases hf : findCloze rest with
        | none => rw [hf] at h; simp at h
        | some t =>
          rw [hf] at h
          obtain ⟨p', g', s'⟩ := t
          simp only [Option.map_some', Option.some_inj, Prod.mk.injEq] at h
          obtain ⟨rfl, rfl, rfl⟩ := h
          have := ih p' g' s' hf
          simp [this]
      | some q =>
        rw [hg] at h
        obtain ⟨g0, s0⟩ := q
        simp only [Option.some_inj, Prod.mk.injEq] at h
        obtain ⟨rfl, rfl, rfl⟩ := h
        obtain ⟨rfl, hh⟩ := h1
        cases rest with
        | nil => simp at hh
        | cons r rt =>
          simp only [List.head?_cons, Option.some_inj] at hh
          subst hh
          have := clozeGroup_spec rt g0 s0 (by simpa using hg)
          simp [this]
    · rw [if_neg h1] at h
      cases hf : findCloze rest with
      | none => rw [hf] at h; simp at h
      | some t =>
        rw [hf] at h
        obtain ⟨p', g', s'⟩ := t
        simp only [Option.map_some', Option.some_inj, Prod.mk.injEq] at h
        obtain ⟨rfl, rfl, rfl⟩ := h
        have := ih p' g' s' hf
        rw [this, List.cons_append]

/-- The `assert(len(clozes) % 2 == 1)` of `anki_cards` holds: a cloze split
always has odd length. -/
theorem clozeSplitF_odd : ∀ (fuel : Nat) (l : Line),
    (clozeSplitF fuel l).length % 2 = 1 := by
  intro fuel
  induction fuel with
  | zero => intro l; rfl
  | succ fuel ih =>
    intro l
    cases hf : findCloze l with
    | none => simp [clozeSplitF, hf]
    | some t =>
      obtain ⟨p, g, s⟩ := t
      simp only [clozeSplitF, hf, List.length_cons]
      have := ih s
      omega

theorem clozeSplit_odd (l : Line) : (clozeSplit l).length % 2 = 1 :=
  clozeSplitF_odd l.length l

/-- Rejoining the split parts with the brace markers restored recovers the
original text: the split is a genuine decomposition. -/
theorem rejoinCloze_clozeSplitF : ∀ (fuel : Nat) (l : Line),
    rejoinCloze (clozeSplitF fuel l) = l := by
  intro fuel
  induction fuel with
  | zero => intro l; rfl
  | succ fuel ih =>
    intro l
    cases hf : findCloze l with
    | none => simp [clozeSplitF, hf, rejoinCloze]
    | some t =>
      obtain ⟨p, g, s⟩ := t
      have hspec := findCloze_spec l p g s hf
      simp only [clozeSplitF, hf]
      cases hrec : clozeSplitF fuel s with
      | nil =>
        exfalso
        have hodd := clozeSplitF_odd fuel s
        rw [hrec] at hodd
        simp at hodd
      | cons x xs =>
        simp only [rejoinCloze]
        rw [← hrec, ih s, ← hspec]

theorem rejoinCloze_clozeSplit (l : Line) : rejoinCloze (clozeSplit l) = l :=
  rejoinCloze_clozeSplitF l.length l

/-- C5: for every leaf node whose non-empty text does not start with one of
`: ; < >`, ends with `.` but not `..`, and splits on the `{{...}}`
delimiters into at least 3 parts (the split is always of odd length, and
rejoining the parts with the markers restored recovers the text), card
extraction emits exactly one card per delimited span — the parts at odd
indices: the card's front is the concatenation of all parts with that one
span replaced by the ellipsis `...`, and its back is the concatenation of
all parts unchanged. -/
theorem c5_cloze_cards (n : OtlNode) (t : Line)
    (hcs : OtlNode.children n = [])
    (ht : OtlNode.text n = some t)
    (hitem : isItemText (some t) = true)
    (hdot : endsWith t ['.'] = true)
    (hdd : endsWith t ['.', '.'] = false)
    (hlen : 3 ≤ (clozeSplit t).length) :
    (clozeSplit t).length % 2 = 1 ∧
    rejoinCloze (clozeSplit t) = t ∧
    ankiCards n = (pyRange1Step2 (clozeSplit t).length).map
      (fun k => ⟨List.flatten ((clozeSplit t).set k ellipsis), List.flatten (clozeSplit t)⟩) := by
  refine ⟨clozeSplit_odd t, rejoinCloze_clozeSplit t, ?_⟩
  cases n with
  | mk ln d tt w a cs =>
    simp only [OtlNode.children] at hcs
    simp only [OtlNode.text] at ht
    subst hcs
    subst ht
    have h1 : (1 : Nat) < (clozeSplit t).length := by omega
    rw [ankiCards]
    have hqa : qaCond (some t) [] = false := by simp [qaCond]
    have hcl : clozeCond (some t) [] = true := by
      simp [clozeCond, hitem, hdot, hdd, h1]
    rw [hqa, hcl]
    simp [clozeCardList]

/-- C5 witness: the spec's example sentence yields exactly the two expected
cards. -/
theorem c5_witness :
    OtlNode.children c5Node = [] ∧
    OtlNode.text c5Node = some c5Text ∧
    isItemText (some c5Text) = true ∧
    endsWith c5Text ['.'] = true ∧
    endsWith c5Text ['.', '.'] = false ∧
    3 ≤ (clozeSplit c5Text).length ∧
    ankiCards c5Node = (pyRange1Step2 (clozeSplit c5Text).length).map
      (fun k => ⟨List.flatten ((clozeSplit c5Text).set k ellipsis),
                 List.flatten (clozeSplit c5Text)⟩) ∧
    ankiCards c5Node =
      [⟨"The capital of ... is Paris.".toList, "The capital of France is Paris.".toList⟩,
       ⟨"The capital of France is ....".toList, "The capital of France is Paris.".toList⟩] :=
  ⟨rfl, rfl, by decide, by decide, by decide, by decide,
    (c5_cloze_cards c5Node c5Text rfl rfl (by decide) (by decide) (by decide) (by decide)).2.2,
    by decide⟩

/-! ## C6: question/answer card extraction -/

/-- C6 counterexample: the claim says a node whose single child's text ends
in `..` yields zero cards, but the code then recurses into the child, whose
own subtree may yield cards.  Concretely, the three-line document below
parses to a `?`-ending node whose `..`-ending child has a cloze grandchild,
and the node yields that grandchild's card rather than none. -/
theorem c6_counterexample :
    parseRoot [c6QText, '\t' :: c6EllText, '\t' :: '\t' :: c6GrandText] none
      = some (OtlNode.mk 0 (-1) none none none [c6BadNode]) ∧
    OtlNode.children c6BadNode = [c6BadChild] ∧
    isItemText (OtlNode.text c6BadNode) = true ∧
    optEndsWith (OtlNode.text c6BadNode) ['?'] = true ∧
    optEndsWith (OtlNode.text c6BadChild) ['.', '.'] = true ∧
    ankiCards c6BadNode ≠ [] ∧
    ankiCards c6BadNode =
      [⟨"The answer is ....".toList, "The answer is 4.".toList⟩] :=
  ⟨rfl, rfl, by decide, by decide, by decide, by decide, by decide⟩

/-- C6 (amended): for every node with exactly one child whose non-empty
text does not start with `: ; < >` and ends with `?`: if the child's text
ends with `.` but not `..`, card extraction emits exactly the one card
`{front: node.text, back: child.text}` and does not recurse into the child;
if instead the child's text ends with `..`, the node emits no card of its
own and yields exactly the cards extracted recursively from the child (in
particular zero when the child is a leaf). -/
theorem c6_qa_card (n : OtlNode) (t ct : Line) (c : OtlNode)
    (hcs : OtlNode.children n = [c])
    (ht : OtlNode.text n = some t)
    (hitem : isItemText (some t) = true)
    (hq : endsWith t ['?'] = true)
    (hct : OtlNode.text c = some ct) :
    (endsWith ct ['.'] = true → endsWith ct ['.', '.'] = false →
      ankiCards n = [⟨t, ct⟩]) ∧
    (endsWith ct ['.', '.'] = true → ankiCards n = ankiCards c) := by
  cases n with
  | mk ln d tt w a cs =>
    simp only [OtlNode.children] at hcs
    simp only [OtlNode.text] at ht
    subst hcs
    subst ht
    constructor
    · intro hdot hdd
      have hqa : qaCond (some t) [c] = true := by
        simp [qaCond, hitem, hq, headText, hct, optEndsWith, hdot, hdd]
      rw [ankiCards, hqa]
      simp [headText, hct]
    · intro hdd
      have hqa : qaCond (some t) [c] = false := by
        simp [qaCond, headText, hct, optEndsWith, hdd]
      have hcl : clozeCond (some t) [c] = false := by
        simp [clozeCond]
      rw [ankiCards, hqa, hcl]
      simp [ankiCardsF]

/-- C6 witness: the spec's example — `What is 2+2?` with the single child
`It is 4.` — yields exactly one card. -/
theorem c6_witness :
    OtlNode.children c6QANode = [OtlNode.mk 2 1 (some c6AText) none none []] ∧
    OtlNode.text c6QANode = some c6QText ∧
    isItemText (some c6QText) = true ∧
    endsWith c6QText ['?'] = true ∧
    endsWith c6AText ['.'] = true ∧
    endsWith c6AText ['.', '.'] = false ∧
    ankiCards c6QANode = [⟨c6QText, c6AText⟩] :=
  ⟨rfl, rfl, by decide, by decide, by decide, by decide,
    (c6_qa_card c6QANode c6QText c6AText (OtlNode.mk 2 1 (some c6AText) none none [])
      rfl rfl (by decide) (by decide) rfl).1 (by decide) (by decide)⟩

/-! ## C9: tag-record merge precedence -/

theorem lookupTag_setTag_self : ∀ (m : List (Line × Line)) (k v : Line),
    lookupTag (setTag m k v) k = some v := by
  intro m
  induction m with
  | nil => intro k v; simp [setTag, lookupTag]
  | cons e rest ih =>
    intro k v
    obtain ⟨k0, v0⟩ := e
    by_cases hk : k0 = k
    · simp [setTag, hk, lookupTag]
    · simp [setTag, hk, lookupTag, ih]

theorem lookupTag_setTag_other : ∀ (m : List (Line × Line)) (k v k' : Line), k' ≠ k →
    lookupTag (setTag m k v) k' = lookupTag m k' := by
  intro m
  induction m with
  | nil => intro k v k' hne; simp [setTag, lookupTag, Ne.symm hne]
  | cons e rest ih =>
    intro k v k' hne
    obtain ⟨k0, v0⟩ := e
    by_cases hk : k0 = k
    · subst hk
      simp only [setTag, if_pos rfl]
      simp [lookupTag, Ne.symm hne]
    · simp only [setTag, if_neg hk]
      by_cases hk' : k0 = k'
      · simp [lookupTag, hk']
      · simp [lookupTag, hk', ih _ _ _ hne]

/-- A record whose name is already present and whose line is not 0 leaves
the dictionary entry untouched; a record with another name never touches
it. -/
theorem tagJsonStep_lookup (m : List (Line × Line)) (t : OTag) (name : Line) (v : Line)
    (hv : lookupTag m name = some v)
    (hline : t.name = name → t.line ≠ 0) :
    lookupTag (tagJsonStep m t) name = some v := by
  unfold tagJsonStep
  by_cases hn : t.name = name
  · have hl := hline hn
    have hnone : (lookupTag m t.name).isNone = false := by rw [hn, hv]; rfl
    simp [hnone, hl, hv]
  · by_cases hcond : ((lookupTag m t.name).isNone || t.line == 0) = true
    · simp only [hcond, if_pos, if_true]
      rw [lookupTag_setTag_other _ _ _ _ (fun h => hn h.symm)]
      exact hv
    · simp only [hcond, if_false, Bool.false_eq_true]
      exact hv

/-- Once the entry holds `v` and no remaining record for the name is
file-level, the entry survives the rest of the fold. -/
theorem tagJson_preserve : ∀ (rest : List OTag) (m : List (Line × Line)) (name v : Line),
    (∀ q, OTag.mk name q 0 ∉ rest) →
    lookupTag m name = some v →
    lookupTag (rest.foldl tagJsonStep m) name = some v := by
  intro rest
  induction rest with
  | nil => intro m name v _ hv; exact hv
  | cons t rest' ih =>
    intro m name v hno hv
    simp only [List.foldl_cons]
    apply ih _ name v (fun q hq => hno q (List.mem_cons_of_mem t hq))
    apply tagJsonStep_lookup m t name v hv
    intro hn hl
    apply hno t.path
    rw [List.mem_cons]
    left
    cases t with
    | mk tn tp tl =>
      simp only [OTag.name] at hn
      simp only [OTag.line] at hl
      simp only [OTag.path]
      rw [hn, hl]

/-- The fold invariant for the file-level (line 0) precedence: if the unique
file-level path for `name` among the remaining records is `p`, and either
that record is still ahead or the entry already holds `p`, the final entry
is `p`. -/
theorem tagJson_line0_aux : ∀ (rest : List OTag) (m : List (Line × Line)) (name p : Line),
    (∀ q, OTag.mk name q 0 ∈ rest → q = p) →
    (OTag.mk name p 0 ∈ rest ∨ lookupTag m name = some p) →
    lookupTag (rest.foldl tagJsonStep m) name = some p := by
  intro rest
  induction rest with
  | nil =>
    intro m name p _ hstart
    rcases hstart with hmem | hlook
    · simp at hmem
    · exact hlook
  | cons t rest' ih =>
    intro m name p huniq hstart
    simp only [List.foldl_cons]
    apply ih _ name p (fun q hq => huniq q (List.mem_cons_of_mem t hq))
    rcases hstart with hmem | hlook
    · rw [List.mem_cons] at hmem
      rcases hmem with heq | hmem
      · right
        rw [← heq]
        unfold tagJsonStep
        simp only [OTag.line, OTag.name, OTag.path]
        simp [lookupTag_setTag_self]
      · left; exact hmem
    · right
      unfold tagJsonStep
      by_cases hn : t.name = name
      · by_cases hl : t.line = 0
        · have hpath : t.path = p := by
            apply huniq t.path
            rw [List.mem_cons]
            left
            cases t with
            | mk tn tp tl =>
              simp only [OTag.name] at hn
              simp only [OTag.line] at hl
              simp only [OTag.path]
              rw [hn, hl]
          simp [hl, hn, hpath, lookupTag_setTag_self]
        · have hnone : (lookupTag m t.name).isNone = false := by rw [hn, hlook]; rfl
          simp [hnone, hl, hlook]
      · by_cases hcond : ((lookupTag m t.name).isNone || t.line == 0) = true
        · simp only [hcond, if_pos, if_true]
          rw [lookupTag_setTag_other _ _ _ _ (fun h => hn h.symm)]
          exact hlook
        · simp only [hcond, if_false, Bool.false_eq_true]
          exact hlook

/-- The fold invariant for the in-file case: with no file-level record for
`name` anywhere and the entry still unset, the first record carrying `name`
determines the final entry `'<file>#<name>'`. -/
theorem tagJson_first_infile : ∀ (rest : List OTag) (m : List (Line × Line)) (name : Line)
    (t0 : OTag),
    (∀ q, OTag.mk name q 0 ∉ rest) →
    rest.find? (fun t => t.name == name) = some t0 →
    lookupTag m name = none →
    lookupTag (rest.foldl tagJsonStep m) name = some (t0.path ++ '#' :: name) := by
  intro rest
  induction rest with
  | nil => intro m name t0 _ hfind; simp at hfind
  | cons t rest' ih =>
    intro m name t0 hno hfind hnone
    simp only [List.foldl_cons]
    by_cases hn : t.name = name
    · have hfound : t0 = t := by
        rw [List.find?_cons_of_pos _ (by simp [hn])] at hfind
        simpa using hfind.symm
      subst hfound
      have hl : t0.line ≠ 0 := by
        intro hl0
        apply hno t0.path
        rw [List.mem_cons]
        left
        cases t0 with
        | mk tn tp tl =>
          simp only [OTag.name] at hn
          simp only [OTag.line] at hl0
          simp only [OTag.path]
          rw [hn, hl0]
      apply tagJson_preserve rest' _ name _
        (fun q hq => hno q (List.mem_cons_of_mem t0 hq))
      unfold tagJsonStep
      rw [hn, hnone]
      simp only [Option.isNone_none, Bool.true_or, if_pos, if_true]
      rw [if_pos hl]
      exact lookupTag_setTag_self m name (t0.path ++ '#' :: name)
    · rw [List.find?_cons_of_neg _ (by simp [hn])] at hfind
      apply ih _ name t0 (fun q hq => hno q (List.mem_cons_of_mem t hq)) hfind
      unfold tagJsonStep
      by_cases hcond : ((lookupTag m t.name).isNone || t.line == 0) = true
      · simp only [hcond, if_pos, if_true]
        rw [lookupTag_setTag_other _ _ _ _ (fun h => hn h.symm)]
        exact hnone
      · simp only [hcond, if_false, Bool.false_eq_true]
        exact hnone

/-- C9: in the `write_tags` merge, exactly one destination is retained per
name (the dictionary maps each name to at most one path); when some record
for the name is file-level (line 0) with path `p` — and `p` is the only
file-level path for that name, as the claim's singular phrasing
presupposes — the retained destination is the bare `p`, regardless of where
the record sits in the encounter order; otherwise the retained destination
is `'<file>#<name>'` of the first-seen record carrying the name. -/
theorem c9_tag_precedence (tags : List OTag) (name : Line) :
    (∀ p, OTag.mk name p 0 ∈ tags → (∀ q, OTag.mk name q 0 ∈ tags → q = p) →
      lookupTag (tagJson tags) name = some p) ∧
    ((∀ q, OTag.mk name q 0 ∉ tags) →
      ∀ t0, tags.find? (fun t => t.name == name) = some t0 →
        lookupTag (tagJson tags) name = some (t0.path ++ '#' :: name)) := by
  constructor
  · intro p hmem huniq
    exact tagJson_line0_aux tags [] name p huniq (Or.inl hmem)
  · intro hno t0 hfind
    exact tagJson_first_infile tags [] name t0 hno hfind rfl

/-- C9 witness: the spec example `[(X, fileA, 0), (X, fileB, 5)]` resolves
`X` to `fileA`, in either encounter order. -/
theorem c9_witness :
    (OTag.mk ['X'] "fileA".toList 0 ∈
        [OTag.mk ['X'] "fileA".toList 0, OTag.mk ['X'] "fileB".toList 5] ∧
      (∀ q, OTag.mk ['X'] q 0 ∈
          [OTag.mk ['X'] "fileA".toList 0, OTag.mk ['X'] "fileB".toList 5] →
        q = "fileA".toList)) ∧
    lookupTag (tagJson [OTag.mk ['X'] "fileA".toList 0, OTag.mk ['X'] "fileB".toList 5])
      ['X'] = some "fileA".toList ∧
    lookupTag (tagJson [OTag.mk ['X'] "fileB".toList 5, OTag.mk ['X'] "fileA".toList 0])
      ['X'] = some "fileA".toList :=
  ⟨⟨by decide, by intro q hq; simp at hq; exact hq⟩,
    (c9_tag_precedence [OTag.mk ['X'] "fileA".toList 0, OTag.mk ['X'] "fileB".toList 5]
      ['X']).1 "fileA".toList (by decide) (by intro q hq; simp at hq; exact hq),
    (c9_tag_precedence [OTag.mk ['X'] "fileB".toList 5, OTag.mk ['X'] "fileA".toList 0]
      ['X']).1 "fileA".toList (by decide) (by intro q hq; simp at hq; exact hq)⟩

/-! ## Shared facts about the digest token in block names -/

theorem containsMd5_eq_false_iff (c : Char) (rest : Line) :
    containsMd5 (c :: rest) = false ↔
      startsMd5 (c :: rest) = false ∧ containsMd5 rest = false := by
  rw [containsMd5]
  simp

theorem searchMd5_none (n : Line) (h : containsMd5 n = false) :
    pySearchMd5 n = none := by
  induction n with
  | nil => rfl
  | cons c rest ih =>
    rw [containsMd5_eq_false_iff] at h
    rw [pySearchMd5, if_neg (by simp [h.1])]
    exact ih h.2

theorem startsMd5_append_space (u v : Line) (h : startsMd5 u = false) :
    startsMd5 (u ++ ' ' :: v) = false := by
  match u with
  | [] => simp [startsMd5]
  | [a] => simp [startsMd5]
  | [a, b] => simp [startsMd5]
  | [a, b, c] => simp [startsMd5]
  | a :: b :: c :: e :: rest =>
    have : (a :: b :: c :: e :: rest ++ ' ' :: v).take 4
        = (a :: b :: c :: e :: rest).take 4 := by simp
    unfold startsMd5 at h ⊢
    rw [this]
    exact h

theorem containsMd5_append_space (a b : Line)
    (ha : containsMd5 a = false) (hb : containsMd5 b = false) :
    containsMd5 (a ++ ' ' :: b) = false := by
  induction a with
  | nil =>
    rw [List.nil_append, containsMd5_eq_false_iff]
    exact ⟨by simp [startsMd5], hb⟩
  | cons c a' ih =>
    rw [containsMd5_eq_false_iff] at ha
    rw [List.cons_append, containsMd5_eq_false_iff]
    exact ⟨startsMd5_append_space (c :: a') b ha.1, ih ha.2⟩

theorem startsMd5_short_false (u : Line) (hlt : u.length < 4) :
    startsMd5 u = false := by
  unfold startsMd5
  rw [List.take_of_length_le (by omega : u.length ≤ 4)]
  rw [beq_eq_false_iff_ne]
  intro heq
  have := congrArg List.length heq
  simp at this
  omega

theorem containsMd5_prefix (a z : Line) (h : containsMd5 (a ++ z) = false) :
    containsMd5 a = false := by
  induction a with
  | nil => rfl
  | cons c a' ih =>
    rw [List.cons_append, containsMd5_eq_false_iff] at h
    rw [containsMd5_eq_false_iff]
    refine ⟨?_, ih h.2⟩
    by_cases h4 : 4 ≤ (c :: a').length
    · unfold startsMd5
      have heq : (c :: a').take 4 = ((c :: a') ++ z).take 4 :=
        (List.take_append_of_le_length h4).symm
      rw [heq]
      exact h.1
    · exact startsMd5_short_false (c :: a') (by simp at h4 ⊢; omega)

theorem containsMd5_suffix (x y : Line) (h : containsMd5 (x ++ y) = false) :
    containsMd5 y = false := by
  induction x with
  | nil => exact h
  | cons c x' ih =>
    rw [List.cons_append, containsMd5_eq_false_iff] at h
    exact ih h.2

theorem isWordChar_ne_newline (c : Char) (h : isWordChar c = true) : c ≠ '\n' := by
  intro hEq
  rw [hEq] at h
  exact absurd h (by decide)

theorem capMinimal_wordy : ∀ (d : Line), d ≠ [] → (∀ c ∈ d, isWordChar c = true) →
    capMinimal d = some d := by
  intro d
  induction d with
  | nil => intro h; exact absurd rfl h
  | cons c rest ih =>
    intro _ hw
    have hc : isWordChar c = true := hw c (by simp)
    cases rest with
    | nil =>
      rw [capMinimal]
      rw [if_pos ⟨isWordChar_ne_newline c hc, hc⟩]
    | cons d2 rest2 =>
      have hd2 : isWordChar d2 = true := hw d2 (by simp)
      rw [capMinimal]
      rw [if_neg (by simpa using isWordChar_ne_newline c hc)]
      rw [if_neg (by rw [hc, hd2]; simp)]
      rw [ih (by simp) (fun x hx => hw x (List.mem_cons_of_mem c hx))]
      rfl

theorem pySearchMd5_append_space (n v : Line) (h : containsMd5 n = false) :
    pySearchMd5 (n ++ ' ' :: v) = pySearchMd5 (' ' :: v) := by
  induction n with
  | nil => rfl
  | cons c n' ih =>
    rw [containsMd5_eq_false_iff] at h
    have hs : startsMd5 (c :: (n' ++ ' ' :: v)) = false :=
      startsMd5_append_space (c :: n') v h.1
    rw [List.cons_append, pySearchMd5, if_neg (by simp [hs])]
    exact ih h.2

/-- Extraction of the digest token the evaluator has just appended: with no
`md5:` substring in the cleaned name and an all-word-character digest, the
lazy search recovers exactly the digest. -/
theorem searchMd5_append (n digest : Line)
    (hsub : containsMd5 n = false)
    (hne : digest ≠ []) (hw : ∀ c ∈ digest, isWordChar c = true) :
    pySearchMd5 (n ++ ' ' :: 'm' :: 'd' :: '5' :: ':' :: digest) = some digest := by
  rw [pySearchMd5_append_space n _ hsub]
  rw [pySearchMd5, if_neg (by simp [startsMd5])]
  rw [pySearchMd5, if_pos (by simp [startsMd5])]
  simp only [List.drop_succ_cons, List.drop_zero]
  rw [capMinimal_wordy digest hne hw]

theorem pySplitWsAux_noMd5 : ∀ (l acc : Line), containsMd5 (acc ++ l) = false →
    ∀ t ∈ pySplitWsAux l acc, containsMd5 t = false := by
  intro l
  induction l with
  | nil =>
    intro acc h t ht
    rw [pySplitWsAux] at ht
    by_cases hacc : acc = []
    · rw [if_pos hacc] at ht; simp at ht
    · rw [if_neg hacc] at ht
      simp at ht
      subst ht
      simpa using h
  | cons c rest ih =>
    intro acc h t ht
    rw [pySplitWsAux] at ht
    by_cases hsp : pyIsSpace c = true
    · rw [if_pos hsp] at ht
      have hrest : containsMd5 ([] ++ rest) = false := by
        have h1 := containsMd5_suffix acc (c :: rest) h
        rw [containsMd5_eq_false_iff] at h1
        simpa using h1.2
      by_cases hacc : acc = []
      · rw [if_pos hacc] at ht
        exact ih [] hrest t ht
      · rw [if_neg hacc] at ht
        rw [List.mem_cons] at ht
        rcases ht with rfl | ht
        · exact containsMd5_prefix t (c :: rest) h
        · exact ih [] hrest t ht
    · rw [if_neg hsp] at ht
      apply ih (acc ++ [c]) _ t ht
      rw [List.append_assoc]
      simpa using h

theorem joinSp_noMd5 : ∀ (ts : List Line), (∀ t ∈ ts, containsMd5 t = false) →
    containsMd5 (joinSp ts) = false := by
  intro ts
  induction ts with
  | nil => intro _; rfl
  | cons t ts' ih =>
    intro h
    cases ts' with
    | nil => exact h t (by simp)
    | cons t2 ts2 =>
      have hj : joinSp (t :: t2 :: ts2) = t ++ ' ' :: joinSp (t2 :: ts2) := rfl
      rw [hj]
      exact containsMd5_append_space t (joinSp (t2 :: ts2))
        (h t (by simp)) (ih (fun x hx => h x (List.mem_cons_of_mem t hx)))

/-- The token-cleaned name contains no `md5:` substring when the original
name contains none. -/
theorem cleanName_noMd5 (name : Line) (h : containsMd5 name = false) :
    containsMd5 (cleanName name) = false := by
  unfold cleanName
  apply joinSp_noMd5
  intro t ht
  exact pySplitWsAux_noMd5 name [] (by simpa using h) t (List.mem_of_mem_filter ht)

/-! ## Facts about `format_j_code` and the output filter -/

theorem endsWith_single_iff (l : Line) (c : Char) :
    endsWith l [c] = true ↔ l.getLast? = some c := by
  unfold endsWith
  rw [List.isSuffixOf]
  simp only [List.reverse_cons, List.reverse_nil, List.nil_append]
  cases hr : l.reverse with
  | nil =>
    rw [List.reverse_eq_nil_iff] at hr
    subst hr
    simp [List.isPrefixOf]
  | cons r rs =>
    have hl : l.getLast? = some r := by
      rw [← List.head?_reverse, hr]
      rfl
    rw [hl]
    simp [List.isPrefixOf]
    constructor
    · intro h; exact (h.symm ▸ rfl)
    · intro h; exact h.symm ▸ rfl

theorem endsWith_append_single (y : Line) (c : Char) :
    endsWith (y ++ [c]) [c] = true := by
  rw [endsWith_single_iff, List.getLast?_concat]

theorem endsWith_pad (line : Line) (h : endsWith line [nbsp] = false) :
    endsWith (threeSpaces ++ line) [nbsp] = false := by
  cases line with
  | nil => decide
  | cons x xs =>
    rw [Bool.eq_false_iff] at h ⊢
    intro hc
    apply h
    rw [endsWith_single_iff] at hc ⊢
    rw [List.getLast?_append] at hc
    cases hx : (x :: xs).getLast? with
    | none => simp at hx
    | some r => rw [hx] at hc; simpa using hc

theorem pyExecFilterAux_nbsp : ∀ (ls : List Line) (junk : Bool) (ret : List Line),
    (∀ x ∈ ret, endsWith x [nbsp] = true) →
    ∀ x ∈ pyExecFilterAux ls junk ret, endsWith x [nbsp] = true := by
  intro ls
  induction ls with
  | nil => intro junk ret h x hx; exact h x hx
  | cons line rest ih =>
    intro junk ret h x hx
    rw [pyExecFilterAux] at hx
    by_cases h1 : (junk && !line.contains rsChar) = true
    · rw [if_pos h1] at hx
      exact ih true ret h x hx
    · rw [if_neg h1] at hx
      by_cases h2 : pyStrip (if junk then afterLastRS line else line) = []
      · rw [if_pos h2] at hx
        exact ih false ret h x hx
      · rw [if_neg h2] at hx
        apply ih false _ _ x hx
        intro y hy
        rw [List.mem_append] at hy
        rcases hy with hy | hy
        · exact h y hy
        · simp at hy
          subst hy
          exact endsWith_append_single _ _

/-- Every line the output filter produces carries the trailing no-break
space marker. -/
theorem pyExecFilter_nbsp (raw : Line) :
    ∀ x ∈ pyExecFilter raw, endsWith x [nbsp] = true :=
  pyExecFilterAux_nbsp (pySplitlines raw) true [] (by simp)

theorem format_j_code_append (a b : List Line) :
    format_j_code (a ++ b) = format_j_code a ++ format_j_code b := by
  unfold format_j_code
  exact List.filterMap_append a b _

theorem format_j_code_nbsp_nil (out : List Line)
    (h : ∀ x ∈ out, endsWith x [nbsp] = true) : format_j_code out = [] := by
  induction out with
  | nil => rfl
  | cons x rest ih =>
    unfold format_j_code
    rw [List.filterMap_cons]
    rw [h x (by simp)]
    exact ih (fun y hy => h y (List.mem_cons_of_mem x hy))

theorem threeSpaces_isPrefixOf_append (line : Line) :
    threeSpaces.isPrefixOf (threeSpaces ++ line) = true := by
  simp [threeSpaces, List.isPrefixOf]

/-- `format_j_code` is idempotent: its output lines never end in the marker
and are already three-space indented, so a second pass keeps them as they
are. -/
theorem format_j_code_idem (b : List Line) :
    format_j_code (format_j_code b) = format_j_code b := by
  induction b with
  | nil => rfl
  | cons line rest ih =>
    unfold format_j_code
    rw [List.filterMap_cons]
    by_cases h1 : endsWith line [nbsp] = true
    · rw [if_pos h1]
      exact ih
    · rw [if_neg h1]
      rw [Bool.not_eq_true] at h1
      by_cases h2 : threeSpaces.isPrefixOf line = true
      · rw [if_pos h2]
        show format_j_code (line :: format_j_code rest) = line :: format_j_code rest
        unfold format_j_code
        rw [List.filterMap_cons, if_neg (by rw [h1]; simp), if_pos h2]
        exact congrArg _ ih
      · rw [if_neg h2]
        show format_j_code ((threeSpaces ++ line) :: format_j_code rest)
            = (threeSpaces ++ line) :: format_j_code rest
        unfold format_j_code
        rw [List.filterMap_cons, if_neg (by rw [endsWith_pad line h1]; simp),
          if_pos (threeSpaces_isPrefixOf_append line)]
        exact congrArg _ ih

/-- The combined second-pass body: formatting `formatted ++ output` gives
back `formatted` when `formatted` is itself a `format_j_code` result and
every `output` line is marker-tagged. -/
theorem format_j_code_round (b : List Line) (out : List Line)
    (h : ∀ x ∈ out, endsWith x [nbsp] = true) :
    format_j_code (format_j_code b ++ out) = format_j_code b := by
  rw [format_j_code_append, format_j_code_idem, format_j_code_nbsp_nil out h,
    List.append_nil]

/-! ## C8: missing interpreter aborts the whole run -/

/-- C8: when neither `ijconsole` nor `jconsole` is discoverable
(`jconsole = none`), evaluating a document that reaches an executable block
needing evaluation (here: a fresh block with no cached digest, so the cache
cannot hit) aborts the entire run with exit code 1 — whatever segments
follow are never processed, so the failure is fatal and whole-run rather
than per-block. -/
theorem c8_missing_interpreter (md5F : Line → Line) (name : Line) (d : Nat)
    (text : List Line) (post : List Segment)
    (hexec : execTag name = true) (hlib : libTag name = false)
    (hfresh : pySearchMd5 name = none) :
    eval_j_code md5F none false (Segment.block name d text :: post) = Except.error 1 := by
  unfold eval_j_code
  rw [evalGo]
  rw [if_neg (by simp [hlib]), if_pos (by simp [hexec])]
  rw [hfresh]
  simp

/-- C8 witness: a concrete fresh `j` block followed by a plain segment. -/
theorem c8_witness :
    execTag ['j'] = true ∧ libTag ['j'] = false ∧ pySearchMd5 ['j'] = none ∧
    eval_j_code mockMd5 none false
      [Segment.block ['j'] 1 ["1+1".toList], Segment.plain [['z']]] = Except.error 1 :=
  ⟨by decide, by decide, by decide,
    c8_missing_interpreter mockMd5 ['j'] 1 ["1+1".toList] [Segment.plain [['z']]]
      (by decide) (by decide) (by decide)⟩

/-! ## C7: digest sensitivity to body changes -/

theorem mockMd5_wordy : ∀ x, mockMd5 x ≠ [] ∧ ∀ c ∈ mockMd5 x, isWordChar c = true := by
  intro x
  refine ⟨by simp [mockMd5], ?_⟩
  intro c hc
  simp only [mockMd5, List.mem_cons, List.mem_flatten, List.mem_map] at hc
  rcases hc with rfl | ⟨l, ⟨e, _, rfl⟩, hcl⟩
  · decide
  · simp only [List.mem_cons, List.mem_replicate] at hcl
    rcases hcl with rfl | ⟨-, rfl⟩
    · decide
    · decide

/-- C7 counterexample: the two bodies differ in exactly one character (a
letter inside an `NB.` comment), yet the comment-stripped normalized source
— the exact string `hash_j_code` feeds to md5 — is unchanged, so the digest
is unchanged; a block whose name caches the digest computed for the first
body is therefore left untouched, with no interpreter invocation, when its
body is the second (shown with no interpreter on the path: had evaluation
been forced, the run would have aborted instead). -/
theorem c7_counterexample :
    c7Body1 ≠ c7Body2 ∧
    c7Body1.length = c7Body2.length ∧
    ((List.zip c7Body1 c7Body2).filter (fun p => p.1 ≠ p.2)).length = 1 ∧
    normalize_j_code [c7Body1] = normalize_j_code [c7Body2] ∧
    hash_j_code mockMd5 (format_j_code [c7Body1])
      = hash_j_code mockMd5 (format_j_code [c7Body2]) ∧
    eval_j_code mockMd5 none false
      [Segment.block ("j md5:".toList ++ hash_j_code mockMd5 (format_j_code [c7Body1]))
        1 [c7Body2]]
      = Except.ok
        ([Segment.block ("j md5:".toList ++ hash_j_code mockMd5 (format_j_code [c7Body1]))
          1 [c7Body2]], 0) :=
  ⟨by decide, by decide, by decide, by decide, rfl, rfl⟩

/-- C7 (amended): changing characters of the block body forces
re-invocation only when the change survives the hash normalization: if the
comment-stripped, blank-line-stripped, whitespace-collapsed source of the
new body equals that of the body whose digest the block's name carries,
the recomputed digest equals the cached one and the block is left entirely
untouched with no interpreter invocation (stated with no interpreter
available, so an attempted invocation would abort instead of returning
`ok`). -/
theorem c7_normalized_digest (md5F : Line → Line)
    (hword : ∀ x, md5F x ≠ [] ∧ ∀ c ∈ md5F x, isWordChar c = true)
    (name : Line) (d : Nat) (b b2 : List Line)
    (hnosub : containsMd5 name = false)
    (hnorm : normalize_j_code (format_j_code b) = normalize_j_code (format_j_code b2)) :
    eval_j_code md5F none false
      [Segment.block
        (name ++ ' ' :: 'm' :: 'd' :: '5' :: ':' :: md5F (normalize_j_code (format_j_code b)))
        d b2]
      = Except.ok
        ([Segment.block
          (name ++ ' ' :: 'm' :: 'd' :: '5' :: ':' :: md5F (normalize_j_code (format_j_code b)))
          d b2], 0) := by
  set dg := md5F (normalize_j_code (format_j_code b)) with hdg
  set name2 := name ++ ' ' :: 'm' :: 'd' :: '5' :: ':' :: dg with hname2
  unfold eval_j_code
  by_cases hlib2 : libTag name2 = true
  · rw [evalGo, if_pos (by simp [hlib2])]
    rw [evalGo]
    rfl
  · by_cases hexec2 : execTag name2 = true
    · rw [evalGo, if_neg (by simp [hlib2]), if_pos (by simp [hexec2])]
      have hcache : pySearchMd5 name2 = some dg := by
        rw [hname2]
        exact searchMd5_append name dg hnosub (hword _).1 (hword _).2
      rw [hcache]
      have hd2 : hash_j_code md5F ([] ++ format_j_code b2) = dg := by
        rw [List.nil_append]
        unfold hash_j_code
        rw [← hnorm]
      dsimp only
      rw [hd2]
      have hcond : (!false && decide ((some dg : Option Line) = some dg)) = true := by simp
      rw [if_pos hcond]
      rw [evalGo]
      rfl
    · rw [evalGo, if_neg (by simp [hlib2]), if_neg (by simp [hexec2])]
      rw [evalGo]
      rfl

/-- C7 witness: the counterexample pair run through the amended theorem —
the block named with the digest of the first body, given the second body,
is left untouched with no invocation. -/
theorem c7_witness :
    containsMd5 ['j'] = false ∧
    normalize_j_code (format_j_code [c7Body1]) = normalize_j_code (format_j_code [c7Body2]) ∧
    eval_j_code mockMd5 none false
      [Segment.block
        (['j'] ++ ' ' :: 'm' :: 'd' :: '5' :: ':' ::
          mockMd5 (normalize_j_code (format_j_code [c7Body1]))) 1 [c7Body2]]
      = Except.ok
        ([Segment.block
          (['j'] ++ ' ' :: 'm' :: 'd' :: '5' :: ':' ::
            mockMd5 (normalize_j_code (format_j_code [c7Body1]))) 1 [c7Body2]], 0) :=
  ⟨by decide, by decide,
    c7_normalized_digest mockMd5 mockMd5_wordy ['j'] 1 [c7Body1] [c7Body2]
      (by decide) (by decide)⟩

/-! ## C3: the evaluation cache across two runs -/

/-- C3 (amended): starting from a fresh executable block — its name carries
no `md5:` substring, so no digest is cached — running `eval_j_code` twice
with `force` false invokes the interpreter exactly once: the first run
invokes it (count 1) and rewrites the block's name to carry the freshly
computed digest `md5:<digest>`, replacing the body with the formatted input
plus the marker-tagged output; on the second run the recomputed digest
equals the embedded digest, so the block is left entirely unmodified (name
and body unchanged) and no interpreter invocation happens (count 0). -/
theorem c3_eval_twice (md5F : Line → Line) (j : Line → Line)
    (hword : ∀ x, md5F x ≠ [] ∧ ∀ c ∈ md5F x, isWordChar c = true)
    (name : Line) (d : Nat) (text : List Line)
    (hexec : execTag name = true) (hlib : libTag name = false)
    (hnosub : containsMd5 name = false) :
    (∀ x ∈ evalBlockOutput j [] text, endsWith x [nbsp] = true) ∧
    eval_j_code md5F (some j) false [Segment.block name d text] =
      Except.ok ([Segment.block
        (cleanName name ++ ' ' :: 'm' :: 'd' :: '5' :: ':' ::
          md5F (normalize_j_code (format_j_code text)))
        d (format_j_code text ++ evalBlockOutput j [] text)], 1) ∧
    eval_j_code md5F (some j) false
      [Segment.block
        (cleanName name ++ ' ' :: 'm' :: 'd' :: '5' :: ':' ::
          md5F (normalize_j_code (format_j_code text)))
        d (format_j_code text ++ evalBlockOutput j [] text)] =
      Except.ok ([Segment.block
        (cleanName name ++ ' ' :: 'm' :: 'd' :: '5' :: ':' ::
          md5F (normalize_j_code (format_j_code text)))
        d (format_j_code text ++ evalBlockOutput j [] text)], 0) := by
  refine ⟨pyExecFilter_nbsp _, ?_, ?_⟩
  · -- first run: cache miss, one invocation, name rewritten
    unfold eval_j_code
    rw [evalGo, if_neg (by simp [hlib]), if_pos (by simp [hexec])]
    rw [searchMd5_none name hnosub]
    dsimp only
    simp only [List.nil_append]
    rw [if_neg (by simp)]
    rw [evalGo]
    rfl
  · -- second run: the recomputed digest matches the embedded one
    set dg := md5F (normalize_j_code (format_j_code text)) with hdg
    set out0 := evalBlockOutput j [] text with hout
    set name2 := cleanName name ++ ' ' :: 'm' :: 'd' :: '5' :: ':' :: dg with hname2
    unfold eval_j_code
    by_cases hlib2 : libTag name2 = true
    · rw [evalGo, if_pos (by simp [hlib2])]
      rw [evalGo]
      rfl
    · by_cases hexec2 : execTag name2 = true
      · rw [evalGo, if_neg (by simp [hlib2]), if_pos (by simp [hexec2])]
        have hcache : pySearchMd5 name2 = some dg := by
          rw [hname2]
          exact searchMd5_append (cleanName name) dg (cleanName_noMd5 name hnosub)
            (hword _).1 (hword _).2
        rw [hcache]
        have hd2 : hash_j_code md5F
            ([] ++ format_j_code (format_j_code text ++ out0)) = dg := by
          rw [List.nil_append, format_j_code_round text out0
            (by rw [hout]; exact pyExecFilter_nbsp _)]
          rfl
        dsimp only
        rw [hd2]
        have hcond : (!false && decide ((some dg : Option Line) = some dg)) = true := by simp
        rw [if_pos hcond]
        rw [evalGo]
        rfl
      · rw [evalGo, if_neg (by simp [hlib2]), if_neg (by simp [hexec2])]
        rw [evalGo]
        rfl

/-- C3 counterexample: the claim as stated quantifies over every unmodified
executable block, but a block whose name already carries the digest of its
current body is a cache hit on the first run as well: two successive
evaluations invoke the interpreter zero times, not exactly once, and the
first run rewrites nothing.  (Run with no interpreter on the path, so an
attempted invocation would have aborted the run instead of returning
`ok`.) -/
theorem c3_counterexample :
    execTag ("j md5:".toList ++ mockMd5 (normalize_j_code (format_j_code ["1+1".toList])))
      = true ∧
    eval_j_code mockMd5 none false
      [Segment.block
        ("j md5:".toList ++ mockMd5 (normalize_j_code (format_j_code ["1+1".toList])))
        1 ["1+1".toList]]
      = Except.ok
        ([Segment.block
          ("j md5:".toList ++ mockMd5 (normalize_j_code (format_j_code ["1+1".toList])))
          1 ["1+1".toList]], 0) :=
  ⟨by decide, rfl⟩

/-- C3 witness: a fresh block named `j` with body `1+1`, evaluated twice
with the mock digest map and mock interpreter. -/
theorem c3_witness :
    (execTag ['j'] = true ∧ libTag ['j'] = false ∧ containsMd5 ['j'] = false) ∧
    ((∀ x ∈ evalBlockOutput mockJConsole [] ["1+1".toList], endsWith x [nbsp] = true) ∧
    eval_j_code mockMd5 (some mockJConsole) false [Segment.block ['j'] 1 ["1+1".toList]] =
      Except.ok ([Segment.block
        (cleanName ['j'] ++ ' ' :: 'm' :: 'd' :: '5' :: ':' ::
          mockMd5 (normalize_j_code (format_j_code ["1+1".toList])))
        1 (format_j_code ["1+1".toList] ++ evalBlockOutput mockJConsole [] ["1+1".toList])], 1) ∧
    eval_j_code mockMd5 (some mockJConsole) false
      [Segment.block
        (cleanName ['j'] ++ ' ' :: 'm' :: 'd' :: '5' :: ':' ::
          mockMd5 (normalize_j_code (format_j_code ["1+1".toList])))
        1 (format_j_code ["1+1".toList] ++ evalBlockOutput mockJConsole [] ["1+1".toList])] =
      Except.ok ([Segment.block
        (cleanName ['j'] ++ ' ' :: 'm' :: 'd' :: '5' :: ':' ::
          mockMd5 (normalize_j_code (format_j_code ["1+1".toList])))
        1 (format_j_code ["1+1".toList] ++ evalBlockOutput mockJConsole [] ["1+1".toList])], 0)) :=
  ⟨⟨by decide, by decide, by decide⟩,
    c3_eval_twice mockMd5 mockJConsole mockMd5_wordy ['j'] 1 ["1+1".toList]
      (by decide) (by decide) (by decide)⟩
